import Mathlib

set_option maxHeartbeats 1000000
set_option maxRecDepth 4000

/-!
Verification development for the annotation-driven AST pruning engine in
src/scripts/babel-plugins/babel-plugin-tree-shake-employee-code.js.

The engine is shallowly embedded: the mutable per-plugin set `removedImports`
becomes an explicitly threaded insertion-ordered list of names, the visitor
dispatch becomes structural recursion over a fragment of the Babel AST
covering the node kinds the plugin handles (import declarations, variable
declarations, function declarations, expression statements, identifiers,
member expressions of two identifiers, logical AND expressions,
StyleSheet.create calls with their object properties, JSX elements with an
optional style attribute, and JSX expression containers), and in-place node
removal becomes returning `none` (for child slots that Babel would null out
rather than splice, the placeholder constructor `removedHole` records the
emptied slot).

Traversal order is modelled after Babel: the Program enter hook first runs
the seeding traversal (VariableDeclaration and CallExpression visitors),
then the main traversal visits the remaining statements in order, each
node before its children, skipping subtrees of removed nodes; the previous
sibling seen by an import declaration is the previous surviving statement.
-/

/-- Comment record: text and optional start line of its source location. -/
structure Comment where
  value : String
  loc : Option Nat
deriving DecidableEq

/-- String containment test, stated on the underlying character lists. -/
def containsMarkerToken (s : String) : Bool :=
  decide ("@employee-code".data <:+: s.data)

/-- Mirrors isEmployeeCodeComment: the text contains the marker token. -/
def isEmployeeCodeComment (c : Comment) : Bool :=
  containsMarkerToken c.value

/-- Mirrors hasEmployeeCodeComment over a comment array. -/
def hasEmployeeCodeComment (cs : List Comment) : Bool :=
  cs.any isEmployeeCodeComment

/-- Mirrors the CRITICAL_MODULES constant. -/
def CRITICAL_MODULES : List String :=
  ["react", "react-native", "react/jsx-runtime", "react/jsx-dev-runtime"]

/-- Mirrors the CRITICAL_IMPORTS constant. -/
def CRITICAL_IMPORTS : List String :=
  ["StyleSheet", "View", "Text", "_jsx", "_jsxs", "_jsxDEV", "Fragment",
   "jsx", "jsxs", "createElement"]

/-- Mirrors isCriticalImport. -/
def isCriticalImport (source : String) (importedNames : List String) : Bool :=
  decide (source ∈ CRITICAL_MODULES) ||
  ((source == "react-native") &&
    importedNames.any (fun n => decide (n ∈ CRITICAL_IMPORTS))) ||
  importedNames.any (fun n => decide (n ∈ CRITICAL_IMPORTS))

/-- Mirrors findEmployeeCodeCommentLines: for every marker comment with a
location, the start line and the immediately following line. -/
def findEmployeeCodeCommentLines : List Comment → List Nat
  | [] => []
  | c :: rest =>
    (if isEmployeeCodeComment c then
       match c.loc with
       | some l => [l, l + 1]
       | none => []
     else []) ++ findEmployeeCodeCommentLines rest

/-- One property of the object literal passed to StyleSheet.create. -/
structure StyleProp where
  key : String
  leading : List Comment
  trailing : List Comment
deriving DecidableEq

mutual
/-- Expression fragment of the Babel AST handled by the plugin. -/
inductive Expr : Type where
  | ident (name : String)
  | numLit (n : Nat)
  | boolLit (b : Bool)
  | nullLit
  | removedHole
  | member (objName propName : String)
  | logicalAnd (leading trailing : List Comment) (left right : Expr)
  | styleCreate (props : List StyleProp)
  | exprContainer (leading trailing : List Comment) (inner : Expr)
  | jsx (tag : String) (leading trailing openLeading openTrailing : List Comment)
        (startLine : Option Nat) (styleAttr : Option (String × String))
        (children : ExprList)
/-- Children sequence of a JSX element. -/
inductive ExprList : Type where
  | nil
  | cons (head : Expr) (tail : ExprList)
end

/-- Kind tag of an import specifier, used for the parent-node test in the
Identifier visitor (ImportSpecifier and ImportDefaultSpecifier parents are
excluded from rewriting, ImportNamespaceSpecifier is not). -/
inductive SpecKind : Type where
  | namedSpec
  | defaultSpec
  | namespaceSpec
deriving DecidableEq

/-- Import specifier: optional imported name and optional local name. -/
structure ImportSpec where
  kind : SpecKind
  imported : Option String
  localName : Option String
deriving DecidableEq

/-- Declarator of a variable declaration: optional binding name (absent for
destructuring patterns) and optional initializer. -/
structure Declarator where
  idName : Option String
  init : Option Expr

/-- Statement fragment of the Babel AST handled by the plugin. -/
inductive Stmt : Type where
  | importDecl (leading trailing : List Comment) (source : String)
               (specs : List ImportSpec)
  | varDecl (leading trailing : List Comment) (decls : List Declarator)
  | funcDecl (leading trailing : List Comment) (name : String)
  | exprStmt (leading trailing : List Comment) (e : Expr)

/-- Parsed file: the full comment list of the AST plus the program body. -/
structure Program where
  comments : List Comment
  body : List Stmt

deriving instance DecidableEq for Expr
deriving instance DecidableEq for Declarator
deriving instance DecidableEq for Stmt
deriving instance DecidableEq for Program

/-- Mirrors the name extraction over import specifiers (lines 98 to 105). -/
def specName (s : ImportSpec) : Option String :=
  match s.imported with
  | some imp =>
    match s.localName with
    | some l => some l
    | none => some imp
  | none => s.localName

/-- The names of all imported items, nulls filtered out. -/
def importedNames (specs : List ImportSpec) : List String :=
  specs.filterMap specName

/-- Local binding names of an import declaration. -/
def localNames (specs : List ImportSpec) : List String :=
  specs.filterMap (fun s => s.localName)

/-- Mirrors removedImports.add on the insertion-ordered tracker. -/
def trackAdd (t : List String) (n : String) : List String :=
  if n ∈ t then t else t ++ [n]

/-- Effect of the Identifier visitor plus replaceWithEmptyIfNeeded on one
identifier occurrence: critical names are never touched; tracked names are
replaced by the undefined placeholder. -/
def identRewrite (t : List String) (n : String) : String :=
  if n ∈ CRITICAL_IMPORTS then n
  else if n ∈ t then "undefined" else n

/-- Seeding CallExpression visitor body: track marked style properties
under the composite key (lines 309 to 317). -/
def seedStyleProps (t : List String) : List StyleProp → List String
  | [] => t
  | p :: rest =>
    if hasEmployeeCodeComment p.leading || hasEmployeeCodeComment p.trailing then
      seedStyleProps (trackAdd t ("styles." ++ p.key)) rest
    else seedStyleProps t rest

mutual
/-- Seeding traversal over expressions: only the CallExpression visitor for
StyleSheet.create matches inside expressions. -/
def seedExpr (t : List String) : Expr → List String
  | .styleCreate props => seedStyleProps t props
  | .logicalAnd _ _ l r => seedExpr (seedExpr t l) r
  | .exprContainer _ _ e => seedExpr t e
  | .jsx _ _ _ _ _ _ _ children => seedExprList t children
  | _ => t
/-- Seeding traversal over a children sequence. -/
def seedExprList (t : List String) : ExprList → List String
  | .nil => t
  | .cons e rest => seedExprList (seedExpr t e) rest
end

/-- Seeding VariableDeclaration visitor: track declarator names, skipping
critical names (lines 285 to 293). -/
def seedTrackNames (t : List String) : List Declarator → List String
  | [] => t
  | d :: rest =>
    seedTrackNames (match d.idName with
      | some n => if n ∈ CRITICAL_IMPORTS then t else trackAdd t n
      | none => t) rest

/-- Seeding traversal over the initializers of a kept declaration. -/
def seedInits (t : List String) : List Declarator → List String
  | [] => t
  | d :: rest =>
    seedInits (match d.init with
      | some e => seedExpr t e
      | none => t) rest

/-- Seeding traversal over one statement: a directly annotated variable
declaration is tracked and removed before the main pass; otherwise the
traversal descends looking for StyleSheet.create calls. -/
def seedStmt (t : List String) : Stmt → List String × Option Stmt
  | .varDecl leading trailing ds =>
    if hasEmployeeCodeComment leading || hasEmployeeCodeComment trailing then
      (seedTrackNames t ds, none)
    else (seedInits t ds, some (.varDecl leading trailing ds))
  | .exprStmt leading trailing e => (seedExpr t e, some (.exprStmt leading trailing e))
  | .importDecl leading trailing source specs =>
    (t, some (.importDecl leading trailing source specs))
  | .funcDecl leading trailing name => (t, some (.funcDecl leading trailing name))

/-- Seeding traversal over the program body, in document order. -/
def seedStmts (t : List String) : List Stmt → List String × List Stmt
  | [] => (t, [])
  | s :: rest =>
    let p1 := seedStmt t s
    let p2 := seedStmts p1.1 rest
    match p1.2 with
    | some s2 => (p2.1, s2 :: p2.2)
    | none => (p2.1, p2.2)

/-- Style-attribute clause of shouldRemove for JSX elements (lines 150 to
166): any member expression of two identifiers whose property yields a
tracked composite key, the object name unconstrained. -/
def hasStyleMatch (t : List String) : Option (String × String) → Bool
  | some op => decide (("styles." ++ op.2) ∈ t)
  | none => false

/-- Line-heuristic clause of shouldRemove for JSX elements (lines 139 to
147): fires exactly when the element start line is in the line set. -/
def lineHeuristicFires (ls : List Nat) : Option Nat → Bool
  | some n => decide (n ∈ ls)
  | none => false

/-- shouldRemoveNode restricted to a JSX element, the only statement-free
node kind it is invoked on besides expression containers: direct comment,
opening-element comment, removed tag name, line heuristic, style match. -/
def shouldRemoveJSX (t : List String) (ls : List Nat)
    (leading trailing openLeading openTrailing : List Comment)
    (tag : String) (startLine : Option Nat)
    (styleAttr : Option (String × String)) : Bool :=
  hasEmployeeCodeComment (leading ++ trailing) ||
  hasEmployeeCodeComment openLeading || hasEmployeeCodeComment openTrailing ||
  decide (tag ∈ t) ||
  lineHeuristicFires ls startLine ||
  hasStyleMatch t styleAttr

/-- Expression clause of shouldRemoveNode for a JSX expression container
(lines 225 to 234): a logical AND whose identifier left operand is tracked
or is the well-known mode flag. -/
def isEmployeeAndLeft (t : List String) : Expr → Bool
  | .logicalAnd _ _ (.ident l) _ => decide (l ∈ t) || (l == "IS_EMPLOYEE_MODE")
  | _ => false

/-- shouldRemoveNode restricted to a JSX expression container: direct
comment on the container, or the mode-flag logical AND clause. -/
def shouldRemoveContainer (t : List String) (leading trailing : List Comment)
    (inner : Expr) : Bool :=
  hasEmployeeCodeComment (leading ++ trailing) || isEmployeeAndLeft t inner

/-- Second style check in the JSXElement visitor else branch (lines 384 to
402): requires the object to be literally the styles identifier. -/
def elseStyleRemove (t : List String) : Option (String × String) → Bool
  | some op => (op.1 == "styles") && decide (("styles." ++ op.2) ∈ t)
  | none => false

/-- Left-operand test of the LogicalExpression visitor: an identifier
named exactly IS_EMPLOYEE_MODE. -/
def leftIsModeFlag : Expr → Bool
  | .ident n => n == "IS_EMPLOYEE_MODE"
  | _ => false

/-- Guard of the LogicalExpression visitor (lines 421 to 432): direct
comment and left operand is the identifier IS_EMPLOYEE_MODE. -/
def logicalReplaceGuard (leading trailing : List Comment) (l : Expr) : Bool :=
  hasEmployeeCodeComment (leading ++ trailing) && leftIsModeFlag l

/-- A removed child in a slot Babel would null out rather than splice. -/
def orHole : Option Expr → Expr
  | some e => e
  | none => .removedHole

/-- Main-pass ObjectProperty visitor over StyleSheet.create properties
(lines 472 to 492): annotated properties are tracked under the composite
key and removed; surviving keys pass through the Identifier visitor. -/
def transformStyleProps (t : List String) : List StyleProp → List String × List StyleProp
  | [] => (t, [])
  | p :: rest =>
    if hasEmployeeCodeComment p.leading || hasEmployeeCodeComment p.trailing then
      transformStyleProps (trackAdd t ("styles." ++ p.key)) rest
    else
      let p2 := transformStyleProps t rest
      (p2.1, { p with key := identRewrite t p.key } :: p2.2)

mutual
/-- Main traversal over one expression, returning the grown tracker and the
surviving node (none when the node was removed). -/
def transformExpr (t : List String) (ls : List Nat) : Expr → List String × Option Expr
  | .ident n => (t, some (.ident (identRewrite t n)))
  | .numLit n => (t, some (.numLit n))
  | .boolLit b => (t, some (.boolLit b))
  | .nullLit => (t, some .nullLit)
  | .removedHole => (t, some .removedHole)
  | .member o p => (t, some (.member (identRewrite t o) (identRewrite t p)))
  | .logicalAnd leading trailing l r =>
    if logicalReplaceGuard leading trailing l then (t, some (.boolLit false))
    else
      let pl := transformExpr t ls l
      let pr := transformExpr pl.1 ls r
      (pr.1, some (.logicalAnd leading trailing (orHole pl.2) (orHole pr.2)))
  | .styleCreate props =>
    let pp := transformStyleProps t props
    (pp.1, some (.styleCreate pp.2))
  | .exprContainer leading trailing inner =>
    if shouldRemoveContainer t leading trailing inner then (t, none)
    else
      let pi := transformExpr t ls inner
      (pi.1, some (.exprContainer leading trailing (orHole pi.2)))
  | .jsx tag leading trailing oLead oTrail startLine styleAttr children =>
    if shouldRemoveJSX t ls leading trailing oLead oTrail tag startLine styleAttr then
      (t, none)
    else if elseStyleRemove t styleAttr then (t, none)
    else
      let sa2 := styleAttr.map (fun op => (identRewrite t op.1, identRewrite t op.2))
      let pc := transformExprList t ls children
      (pc.1, some (.jsx tag leading trailing oLead oTrail startLine sa2 pc.2))
/-- Main traversal over a children sequence; removed children are spliced
out of the parent sequence. -/
def transformExprList (t : List String) (ls : List Nat) : ExprList → List String × ExprList
  | .nil => (t, .nil)
  | .cons e rest =>
    let pe := transformExpr t ls e
    let pr := transformExprList pe.1 ls rest
    match pe.2 with
    | some e2 => (pr.1, .cons e2 pr.2)
    | none => (pr.1, pr.2)
end

/-- Main traversal over the declarators of a kept variable declaration: the
binding identifier and the initializer pass through the Identifier visitor;
a removed initializer leaves the slot empty. -/
def transformDecls (t : List String) (ls : List Nat) :
    List Declarator → List String × List Declarator
  | [] => (t, [])
  | d :: rest =>
    let idName2 := d.idName.map (identRewrite t)
    let pInit : List String × Option Expr :=
      match d.init with
      | some e => transformExpr t ls e
      | none => (t, none)
    let pRest := transformDecls pInit.1 ls rest
    (pRest.1, { idName := idName2, init := pInit.2 } :: pRest.2)

/-- Identifier visitor applied to the local name of a namespace import
specifier, the one specifier position whose parent kind is not excluded. -/
def rewriteSpec (t : List String) (s : ImportSpec) : ImportSpec :=
  match s.kind with
  | .namespaceSpec => { s with localName := s.localName.map (identRewrite t) }
  | _ => s

/-- Tracking loop of the ImportDeclaration visitor (lines 365 to 369). -/
def trackImportNames (t : List String) : List String → List String
  | [] => t
  | n :: rest =>
    trackImportNames (if n ∈ CRITICAL_IMPORTS then t else trackAdd t n) rest

/-- Leading comments of a statement. -/
def stmtLeading : Stmt → List Comment
  | .importDecl l _ _ _ => l
  | .varDecl l _ _ => l
  | .funcDecl l _ _ => l
  | .exprStmt l _ _ => l

/-- Trailing comments of a statement. -/
def stmtTrailing : Stmt → List Comment
  | .importDecl _ tr _ _ => tr
  | .varDecl _ tr _ => tr
  | .funcDecl _ tr _ => tr
  | .exprStmt _ tr _ => tr

/-- Marker test on the previous sibling used by the ImportDeclaration
visitor (lines 343 to 346). -/
def prevHasMarker : Option Stmt → Bool
  | some p => hasEmployeeCodeComment (stmtLeading p) ||
              hasEmployeeCodeComment (stmtTrailing p)
  | none => false

/-- Tracking loop of the main-pass VariableDeclaration visitor (lines 450
to 456); unlike the seeding traversal it carries no critical-name guard. -/
def trackDeclNames (t : List String) : List Declarator → List String
  | [] => t
  | d :: rest =>
    trackDeclNames (match d.idName with
      | some n => trackAdd t n
      | none => t) rest

/-- Main traversal over one statement. The prev argument is the previous
surviving statement, as Babel getPrevSibling sees it after earlier
removals spliced the body array. -/
def transformStmt (t : List String) (ls : List Nat) (prev : Option Stmt) :
    Stmt → List String × Option Stmt
  | .importDecl leading trailing source specs =>
    if source == "react/jsx-runtime" || source == "react/jsx-dev-runtime" then
      (t, some (.importDecl leading trailing source (specs.map (rewriteSpec t))))
    else
      if (hasEmployeeCodeComment leading || hasEmployeeCodeComment trailing) ||
         prevHasMarker prev then
        if isCriticalImport source (importedNames specs) then
          (t, some (.importDecl leading trailing source (specs.map (rewriteSpec t))))
        else (trackImportNames t (importedNames specs), none)
      else (t, some (.importDecl leading trailing source (specs.map (rewriteSpec t))))
  | .varDecl leading trailing ds =>
    if hasEmployeeCodeComment leading || hasEmployeeCodeComment trailing then
      (trackDeclNames t ds, none)
    else
      let pd := transformDecls t ls ds
      (pd.1, some (.varDecl leading trailing pd.2))
  | .funcDecl leading trailing name =>
    if hasEmployeeCodeComment leading || hasEmployeeCodeComment trailing then (t, none)
    else (t, some (.funcDecl leading trailing (identRewrite t name)))
  | .exprStmt leading trailing e =>
    if hasEmployeeCodeComment leading || hasEmployeeCodeComment trailing then (t, none)
    else
      let pe := transformExpr t ls e
      match pe.2 with
      | some e2 => (pe.1, some (.exprStmt leading trailing e2))
      | none => (pe.1, none)

/-- Main traversal over the program body with previous-sibling threading. -/
def transformStmts (t : List String) (ls : List Nat) (prev : Option Stmt) :
    List Stmt → List String × List Stmt
  | [] => (t, [])
  | s :: rest =>
    let ps := transformStmt t ls prev s
    match ps.2 with
    | some s2 =>
      let pr := transformStmts ps.1 ls (some s2) rest
      (pr.1, s2 :: pr.2)
    | none =>
      let pr := transformStmts ps.1 ls prev rest
      (pr.1, pr.2)

/-- One run of the plugin on one file: derive the annotation line set once,
run the seeding traversal, then the main traversal. The first component is
the tracker, which is also the removed-symbol report emitted at Program
exit; the second is the pruned program, its comment list untouched. -/
def runPlugin (t0 : List String) (p : Program) : List String × Program :=
  let ls := findEmployeeCodeCommentLines p.comments
  let ps := seedStmts t0 p.body
  let pm := transformStmts ps.1 ls none ps.2
  (pm.1, { comments := p.comments, body := pm.2 })

/-- Membership is preserved by a tracker add. -/
theorem mem_trackAdd_of_mem {t : List String} {x : String} (n : String) (h : x ∈ t) :
    x ∈ trackAdd t n := by
  unfold trackAdd; split
  · exact h
  · exact List.mem_append_left _ h

/-- The added name is in the tracker afterwards. -/
theorem self_mem_trackAdd (t : List String) (n : String) : n ∈ trackAdd t n := by
  unfold trackAdd; split
  · assumption
  · exact List.mem_append_right _ (List.mem_singleton.mpr rfl)

/-- Tracker membership after an add comes from before or is the new name. -/
theorem mem_of_mem_trackAdd {t : List String} {x n : String} (h : x ∈ trackAdd t n) :
    x ∈ t ∨ x = n := by
  unfold trackAdd at h; split at h
  · exact Or.inl h
  · rcases List.mem_append.mp h with h1 | h1
    · exact Or.inl h1
    · exact Or.inr (List.mem_singleton.mp h1)

/-- Appending strings concatenates their character lists. -/
theorem string_data_append (a b : String) : (a ++ b).data = a.data ++ b.data := by
  cases a; cases b; rfl

/-- No critical import name contains a dot character. -/
theorem no_dot_critical : ∀ c ∈ CRITICAL_IMPORTS, '.' ∉ c.data := by decide

/-- Every composite style key contains a dot character. -/
theorem dot_mem_styles (k : String) : '.' ∈ ("styles." ++ k).data := by
  rw [string_data_append]; exact List.mem_append_left _ (by decide)

/-- Composite style keys are never critical import names. -/
theorem stylesKeyNotCritical (k : String) : ("styles." ++ k) ∉ CRITICAL_IMPORTS := by
  intro h
  exact no_dot_critical _ h (dot_mem_styles k)

theorem monoSeedTrackNames (ds : List Declarator) :
    ∀ t, ∀ x ∈ t, x ∈ seedTrackNames t ds := by
  induction ds with
  | nil => intro t x hx; exact hx
  | cons d rest ih =>
    intro t x hx
    unfold seedTrackNames
    apply ih
    cases d.idName with
    | none => exact hx
    | some n =>
      dsimp only
      split
      · exact hx
      · exact mem_trackAdd_of_mem _ hx

theorem monoSeedStyleProps (ps : List StyleProp) :
    ∀ t, ∀ x ∈ t, x ∈ seedStyleProps t ps := by
  induction ps with
  | nil => intro t x hx; exact hx
  | cons p rest ih =>
    intro t x hx
    unfold seedStyleProps
    split
    · exact ih _ _ (mem_trackAdd_of_mem _ hx)
    · exact ih _ _ hx

mutual
theorem monoSeedExpr (e : Expr) : ∀ t, ∀ x ∈ t, x ∈ seedExpr t e := by
  cases e with
  | styleCreate props => intro t x hx; exact monoSeedStyleProps props t x hx
  | logicalAnd a b l r =>
    intro t x hx
    exact monoSeedExpr r _ _ (monoSeedExpr l _ _ hx)
  | exprContainer a b inner => intro t x hx; exact monoSeedExpr inner _ _ hx
  | jsx tag a b c d sl sa children => intro t x hx; exact monoSeedExprList children _ _ hx
  | ident n => intro t x hx; exact hx
  | numLit n => intro t x hx; exact hx
  | boolLit b => intro t x hx; exact hx
  | nullLit => intro t x hx; exact hx
  | removedHole => intro t x hx; exact hx
  | member o p => intro t x hx; exact hx

theorem monoSeedExprList (es : ExprList) : ∀ t, ∀ x ∈ t, x ∈ seedExprList t es := by
  cases es with
  | nil => intro t x hx; exact hx
  | cons e rest =>
    intro t x hx
    exact monoSeedExprList rest _ _ (monoSeedExpr e _ _ hx)
end

theorem monoSeedInits (ds : List Declarator) :
    ∀ t, ∀ x ∈ t, x ∈ seedInits t ds := by
  induction ds with
  | nil => intro t x hx; exact hx
  | cons d rest ih =>
    intro t x hx
    unfold seedInits
    apply ih
    cases d.init with
    | none => exact hx
    | some e => exact monoSeedExpr e _ _ hx

theorem monoSeedStmt (s : Stmt) : ∀ t, ∀ x ∈ t, x ∈ (seedStmt t s).1 := by
  cases s with
  | varDecl leading trailing ds =>
    intro t x hx
    simp only [seedStmt]
    split
    · exact monoSeedTrackNames ds _ _ hx
    · exact monoSeedInits ds _ _ hx
  | exprStmt leading trailing e => intro t x hx; exact monoSeedExpr e _ _ hx
  | importDecl a b c d => intro t x hx; exact hx
  | funcDecl a b c => intro t x hx; exact hx

theorem monoSeedStmts (ss : List Stmt) :
    ∀ t, ∀ x ∈ t, x ∈ (seedStmts t ss).1 := by
  induction ss with
  | nil => intro t x hx; exact hx
  | cons s rest ih =>
    intro t x hx
    unfold seedStmts
    cases h : (seedStmt t s).2 <;>
      simpa [h] using ih _ _ (monoSeedStmt s _ _ hx)

theorem monoTransformStyleProps (ps : List StyleProp) :
    ∀ t, ∀ x ∈ t, x ∈ (transformStyleProps t ps).1 := by
  induction ps with
  | nil => intro t x hx; exact hx
  | cons p rest ih =>
    intro t x hx
    unfold transformStyleProps
    split
    · exact ih _ _ (mem_trackAdd_of_mem _ hx)
    · exact ih _ _ hx

mutual
theorem monoTransformExpr (e : Expr) :
    ∀ t ls, ∀ x ∈ t, x ∈ (transformExpr t ls e).1 := by
  cases e with
  | ident n => intro t ls x hx; exact hx
  | numLit n => intro t ls x hx; exact hx
  | boolLit b => intro t ls x hx; exact hx
  | nullLit => intro t ls x hx; exact hx
  | removedHole => intro t ls x hx; exact hx
  | member o p => intro t ls x hx; exact hx
  | logicalAnd a b l r =>
    intro t ls x hx
    simp only [transformExpr]
    split
    · exact hx
    · exact monoTransformExpr r _ _ _ (monoTransformExpr l _ _ _ hx)
  | styleCreate props =>
    intro t ls x hx
    exact monoTransformStyleProps props _ _ hx
  | exprContainer a b inner =>
    intro t ls x hx
    simp only [transformExpr]
    split
    · exact hx
    · exact monoTransformExpr inner _ _ _ hx
  | jsx tag a b c d sl sa children =>
    intro t ls x hx
    simp only [transformExpr]
    split
    · exact hx
    · split
      · exact hx
      · exact monoTransformExprList children _ _ _ hx

theorem monoTransformExprList (es : ExprList) :
    ∀ t ls, ∀ x ∈ t, x ∈ (transformExprList t ls es).1 := by
  cases es with
  | nil => intro t ls x hx; exact hx
  | cons e rest =>
    intro t ls x hx
    simp only [transformExprList]
    cases h : (transformExpr t ls e).2 <;>
      simpa [h] using
        monoTransformExprList rest _ _ _ (monoTransformExpr e _ _ _ hx)
end

theorem monoTransformDecls (ds : List Declarator) :
    ∀ t ls, ∀ x ∈ t, x ∈ (transformDecls t ls ds).1 := by
  induction ds with
  | nil => intro t ls x hx; exact hx
  | cons d rest ih =>
    intro t ls x hx
    unfold transformDecls
    apply ih
    cases d.init with
    | none => exact hx
    | some e => exact monoTransformExpr e _ _ _ hx

theorem monoTrackImportNames (ns : List String) :
    ∀ t, ∀ x ∈ t, x ∈ trackImportNames t ns := by
  induction ns with
  | nil => intro t x hx; exact hx
  | cons n rest ih =>
    intro t x hx
    unfold trackImportNames
    apply ih
    split
    · exact hx
    · exact mem_trackAdd_of_mem _ hx

theorem monoTrackDeclNames (ds : List Declarator) :
    ∀ t, ∀ x ∈ t, x ∈ trackDeclNames t ds := by
  induction ds with
  | nil => intro t x hx; exact hx
  | cons d rest ih =>
    intro t x hx
    unfold trackDeclNames
    apply ih
    cases d.idName with
    | none => exact hx
    | some n => exact mem_trackAdd_of_mem _ hx

theorem monoTransformStmt (s : Stmt) :
    ∀ t ls prev, ∀ x ∈ t, x ∈ (transformStmt t ls prev s).1 := by
  cases s with
  | importDecl leading trailing source specs =>
    intro t ls prev x hx
    simp only [transformStmt]
    split
    · exact hx
    · split
      · split
        · exact hx
        · exact monoTrackImportNames _ _ _ hx
      · exact hx
  | varDecl leading trailing ds =>
    intro t ls prev x hx
    simp only [transformStmt]
    split
    · exact monoTrackDeclNames ds _ _ hx
    · exact monoTransformDecls ds _ _ _ hx
  | funcDecl leading trailing name =>
    intro t ls prev x hx
    simp only [transformStmt]
    split <;> exact hx
  | exprStmt leading trailing e =>
    intro t ls prev x hx
    simp only [transformStmt]
    split
    · exact hx
    · cases h : (transformExpr t ls e).2 <;>
        simpa [h] using monoTransformExpr e _ _ _ hx

theorem monoTransformStmts (ss : List Stmt) :
    ∀ t ls prev, ∀ x ∈ t, x ∈ (transformStmts t ls prev ss).1 := by
  induction ss with
  | nil => intro t ls prev x hx; exact hx
  | cons s rest ih =>
    intro t ls prev x hx
    unfold transformStmts
    cases h : (transformStmt t ls prev s).2 <;>
      simpa [h] using ih _ _ _ _ (monoTransformStmt s _ _ _ _ hx)

theorem critSeedStyleProps (ps : List StyleProp) :
    ∀ t x, x ∈ seedStyleProps t ps → x ∈ t ∨ x ∉ CRITICAL_IMPORTS := by
  induction ps with
  | nil => intro t x hx; exact Or.inl hx
  | cons p rest ih =>
    intro t x hx
    unfold seedStyleProps at hx
    split at hx
    · rcases ih _ _ hx with h1 | h1
      · rcases mem_of_mem_trackAdd h1 with h2 | h2
        · exact Or.inl h2
        · subst h2; exact Or.inr (stylesKeyNotCritical _)
      · exact Or.inr h1
    · exact ih _ _ hx

mutual
theorem critSeedExpr (e : Expr) :
    ∀ t x, x ∈ seedExpr t e → x ∈ t ∨ x ∉ CRITICAL_IMPORTS := by
  cases e with
  | styleCreate props => intro t x hx; exact critSeedStyleProps props t x hx
  | logicalAnd a b l r =>
    intro t x hx
    rcases critSeedExpr r _ _ hx with h1 | h1
    · exact critSeedExpr l _ _ h1
    · exact Or.inr h1
  | exprContainer a b inner => intro t x hx; exact critSeedExpr inner _ _ hx
  | jsx tag a b c d sl sa children => intro t x hx; exact critSeedExprList children _ _ hx
  | ident n => intro t x hx; exact Or.inl hx
  | numLit n => intro t x hx; exact Or.inl hx
  | boolLit b => intro t x hx; exact Or.inl hx
  | nullLit => intro t x hx; exact Or.inl hx
  | removedHole => intro t x hx; exact Or.inl hx
  | member o p => intro t x hx; exact Or.inl hx

theorem critSeedExprList (es : ExprList) :
    ∀ t x, x ∈ seedExprList t es → x ∈ t ∨ x ∉ CRITICAL_IMPORTS := by
  cases es with
  | nil => intro t x hx; exact Or.inl hx
  | cons e rest =>
    intro t x hx
    rcases critSeedExprList rest _ _ hx with h1 | h1
    · exact critSeedExpr e _ _ h1
    · exact Or.inr h1
end

theorem critSeedTrackNames (ds : List Declarator) :
    ∀ t x, x ∈ seedTrackNames t ds → x ∈ t ∨ x ∉ CRITICAL_IMPORTS := by
  induction ds with
  | nil => intro t x hx; exact Or.inl hx
  | cons d rest ih =>
    intro t x hx
    unfold seedTrackNames at hx
    rcases ih _ _ hx with h1 | h1
    · revert h1
      cases d.idName with
      | none => exact fun h1 => Or.inl h1
      | some n =>
        dsimp only
        split
        · exact fun h1 => Or.inl h1
        · intro h1
          rcases mem_of_mem_trackAdd h1 with h2 | h2
          · exact Or.inl h2
          · subst h2; right; simpa using by assumption
    · exact Or.inr h1

theorem critSeedInits (ds : List Declarator) :
    ∀ t x, x ∈ seedInits t ds → x ∈ t ∨ x ∉ CRITICAL_IMPORTS := by
  induction ds with
  | nil => intro t x hx; exact Or.inl hx
  | cons d rest ih =>
    intro t x hx
    unfold seedInits at hx
    rcases ih _ _ hx with h1 | h1
    · revert h1
      cases d.init with
      | none => exact fun h1 => Or.inl h1
      | some e => exact fun h1 => critSeedExpr e _ _ h1
    · exact Or.inr h1

theorem critSeedStmt (s : Stmt) :
    ∀ t x, x ∈ (seedStmt t s).1 → x ∈ t ∨ x ∉ CRITICAL_IMPORTS := by
  cases s with
  | varDecl leading trailing ds =>
    intro t x hx
    simp only [seedStmt] at hx
    split at hx
    · exact critSeedTrackNames ds _ _ hx
    · exact critSeedInits ds _ _ hx
  | exprStmt leading trailing e => intro t x hx; exact critSeedExpr e _ _ hx
  | importDecl a b c d => intro t x hx; exact Or.inl hx
  | funcDecl a b c => intro t x hx; exact Or.inl hx

theorem critSeedStmts (ss : List Stmt) :
    ∀ t x, x ∈ (seedStmts t ss).1 → x ∈ t ∨ x ∉ CRITICAL_IMPORTS := by
  induction ss with
  | nil => intro t x hx; exact Or.inl hx
  | cons s rest ih =>
    intro t x hx
    unfold seedStmts at hx
    have hx2 : x ∈ (seedStmts (seedStmt t s).1 rest).1 := by
      cases h : (seedStmt t s).2 <;> simpa [h] using hx
    rcases ih _ _ hx2 with h1 | h1
    · exact critSeedStmt s _ _ h1
    · exact Or.inr h1

theorem critTransformStyleProps (ps : List StyleProp) :
    ∀ t x, x ∈ (transformStyleProps t ps).1 → x ∈ t ∨ x ∉ CRITICAL_IMPORTS := by
  induction ps with
  | nil => intro t x hx; exact Or.inl hx
  | cons p rest ih =>
    intro t x hx
    unfold transformStyleProps at hx
    split at hx
    · rcases ih _ _ hx with h1 | h1
      · rcases mem_of_mem_trackAdd h1 with h2 | h2
        · exact Or.inl h2
        · subst h2; exact Or.inr (stylesKeyNotCritical _)
      · exact Or.inr h1
    · exact ih _ _ hx

mutual
theorem critTransformExpr (e : Expr) :
    ∀ t ls x, x ∈ (transformExpr t ls e).1 → x ∈ t ∨ x ∉ CRITICAL_IMPORTS := by
  cases e with
  | ident n => intro t ls x hx; exact Or.inl hx
  | numLit n => intro t ls x hx; exact Or.inl hx
  | boolLit b => intro t ls x hx; exact Or.inl hx
  | nullLit => intro t ls x hx; exact Or.inl hx
  | removedHole => intro t ls x hx; exact Or.inl hx
  | member o p => intro t ls x hx; exact Or.inl hx
  | logicalAnd a b l r =>
    intro t ls x hx
    simp only [transformExpr] at hx
    split at hx
    · exact Or.inl hx
    · rcases critTransformExpr r _ _ _ hx with h1 | h1
      · exact critTransformExpr l _ _ _ h1
      · exact Or.inr h1
  | styleCreate props =>
    intro t ls x hx
    exact critTransformStyleProps props _ _ hx
  | exprContainer a b inner =>
    intro t ls x hx
    simp only [transformExpr] at hx
    split at hx
    · exact Or.inl hx
    · exact critTransformExpr inner _ _ _ hx
  | jsx tag a b c d sl sa children =>
    intro t ls x hx
    simp only [transformExpr] at hx
    split at hx
    · exact Or.inl hx
    · split at hx
      · exact Or.inl hx
      · exact critTransformExprList children _ _ _ hx

theorem critTransformExprList (es : ExprList) :
    ∀ t ls x, x ∈ (transformExprList t ls es).1 → x ∈ t ∨ x ∉ CRITICAL_IMPORTS := by
  cases es with
  | nil => intro t ls x hx; exact Or.inl hx
  | cons e rest =>
    intro t ls x hx
    have hx2 : x ∈ (transformExprList (transformExpr t ls e).1 ls rest).1 := by
      simp only [transformExprList] at hx
      cases h : (transformExpr t ls e).2 <;> simpa [h] using hx
    rcases critTransformExprList rest _ _ _ hx2 with h1 | h1
    · exact critTransformExpr e _ _ _ h1
    · exact Or.inr h1
end

theorem critTransformDecls (ds : List Declarator) :
    ∀ t ls x, x ∈ (transformDecls t ls ds).1 → x ∈ t ∨ x ∉ CRITICAL_IMPORTS := by
  induction ds with
  | nil => intro t ls x hx; exact Or.inl hx
  | cons d rest ih =>
    intro t ls x hx
    unfold transformDecls at hx
    rcases ih _ _ _ hx with h1 | h1
    · revert h1
      cases d.init with
      | none => exact fun h1 => Or.inl h1
      | some e => exact fun h1 => critTransformExpr e _ _ _ h1
    · exact Or.inr h1

theorem critTrackImportNames (ns : List String) :
    ∀ t x, x ∈ trackImportNames t ns → x ∈ t ∨ x ∉ CRITICAL_IMPORTS := by
  induction ns with
  | nil => intro t x hx; exact Or.inl hx
  | cons n rest ih =>
    intro t x hx
    unfold trackImportNames at hx
    rcases ih _ _ hx with h1 | h1
    · revert h1
      split
      · exact fun h1 => Or.inl h1
      · intro h1
        rcases mem_of_mem_trackAdd h1 with h2 | h2
        · exact Or.inl h2
        · subst h2; right; simpa using by assumption
    · exact Or.inr h1

/-- A statement that is not a directly annotated variable declaration; the
seeding traversal guarantees this shape for every statement it keeps. -/
def noMarkedVar : Stmt → Prop
  | .varDecl leading trailing _ =>
    hasEmployeeCodeComment leading = false ∧ hasEmployeeCodeComment trailing = false
  | _ => True

theorem seedStmtNoMarked (s : Stmt) :
    ∀ t s2, (seedStmt t s).2 = some s2 → noMarkedVar s2 := by
  cases s with
  | varDecl leading trailing ds =>
    intro t s2 h
    simp only [seedStmt] at h
    by_cases hc : (hasEmployeeCodeComment leading || hasEmployeeCodeComment trailing) = true
    · rw [if_pos hc] at h; exact absurd h (by simp)
    · rw [if_neg hc] at h
      cases h
      simp only [noMarkedVar]
      simpa using hc
  | exprStmt leading trailing e =>
    intro t s2 h
    simp only [seedStmt] at h
    cases h; trivial
  | importDecl a b c d =>
    intro t s2 h
    simp only [seedStmt] at h
    cases h; trivial
  | funcDecl a b c =>
    intro t s2 h
    simp only [seedStmt] at h
    cases h; trivial

theorem seedStmtsNoMarked (ss : List Stmt) :
    ∀ t, ∀ s2 ∈ (seedStmts t ss).2, noMarkedVar s2 := by
  induction ss with
  | nil => intro t s2 h; simp [seedStmts] at h
  | cons s rest ih =>
    intro t s2 h
    cases hh : (seedStmt t s).2 with
    | none =>
      simp only [seedStmts, hh] at h
      exact ih _ _ h
    | some s3 =>
      simp only [seedStmts, hh] at h
      rcases (by simpa using h : s2 = s3 ∨ s2 ∈ (seedStmts (seedStmt t s).1 rest).2) with
        h1 | h1
      · subst h1; exact seedStmtNoMarked s _ _ hh
      · exact ih _ _ h1

theorem critTransformStmt (s : Stmt) (hs : noMarkedVar s) :
    ∀ t ls prev x, x ∈ (transformStmt t ls prev s).1 → x ∈ t ∨ x ∉ CRITICAL_IMPORTS := by
  cases s with
  | importDecl leading trailing source specs =>
    intro t ls prev x hx
    simp only [transformStmt] at hx
    split at hx
    · exact Or.inl hx
    · split at hx
      · split at hx
        · exact Or.inl hx
        · exact critTrackImportNames _ _ _ hx
      · exact Or.inl hx
  | varDecl leading trailing ds =>
    intro t ls prev x hx
    simp only [noMarkedVar] at hs
    simp only [transformStmt] at hx
    rw [if_neg (by simp [hs.1, hs.2])] at hx
    exact critTransformDecls ds _ _ _ hx
  | funcDecl leading trailing name =>
    intro t ls prev x hx
    simp only [transformStmt] at hx
    split at hx <;> exact Or.inl hx
  | exprStmt leading trailing e =>
    intro t ls prev x hx
    simp only [transformStmt] at hx
    split at hx
    · exact Or.inl hx
    · have hx2 : x ∈ (transformExpr t ls e).1 := by
        cases h : (transformExpr t ls e).2 <;> rw [h] at hx <;> simpa using hx
      exact critTransformExpr e _ _ _ hx2

theorem critTransformStmts (ss : List Stmt) (hs : ∀ s ∈ ss, noMarkedVar s) :
    ∀ t ls prev x, x ∈ (transformStmts t ls prev ss).1 → x ∈ t ∨ x ∉ CRITICAL_IMPORTS := by
  induction ss with
  | nil => intro t ls prev x hx; exact Or.inl hx
  | cons s rest ih =>
    intro t ls prev x hx
    have hrest := ih (fun s2 h2 => hs s2 (List.mem_cons_of_mem _ h2))
    have hcrit := critTransformStmt s (hs s (List.mem_cons_self s rest))
    cases h : (transformStmt t ls prev s).2 with
    | none =>
      simp only [transformStmts, h] at hx
      rcases hrest _ _ _ _ hx with h1 | h1
      · exact hcrit _ _ _ _ h1
      · exact Or.inr h1
    | some s2 =>
      simp only [transformStmts, h] at hx
      rcases hrest _ _ _ _ hx with h1 | h1
      · exact hcrit _ _ _ _ h1
      · exact Or.inr h1

/-- Marker comment used by the concrete example programs, located line 2. -/
def markerComment : Comment := ⟨" @employee-code ", some 2⟩

/-- Example file: a critical name declared under a direct annotation, plus a
directly annotated import of a critical module. -/
def progC1 : Program :=
  ⟨[markerComment],
   [Stmt.varDecl [markerComment] [] [⟨some "View", some (Expr.numLit 1)⟩],
    Stmt.importDecl [markerComment] [] "react-native"
      [⟨SpecKind.namedSpec, some "View", some "View"⟩]]⟩

/-- C1: for every starting tracker not containing it and every input file,
a name in the Critical Symbol Set is never present in the tracker returned
by a full run of the plugin, hence never in the removed-symbol report. -/
theorem c1_protection_invariant (t0 : List String) (p : Program) (n : String)
    (hcrit : n ∈ CRITICAL_IMPORTS) (h0 : n ∉ t0) : n ∉ (runPlugin t0 p).1 := by
  intro hmem
  simp only [runPlugin] at hmem
  rcases critTransformStmts _ (seedStmtsNoMarked p.body t0) _ _ _ _ hmem with h1 | h1
  · rcases critSeedStmts p.body _ _ h1 with h2 | h2
    · exact h0 h2
    · exact h2 hcrit
  · exact h1 hcrit

/-- C1 witness: the protection invariant applied to a concrete file whose
annotated declaration and annotated import both carry the name View. -/
theorem c1_witness :
    "View" ∈ CRITICAL_IMPORTS ∧ "View" ∉ ([] : List String) ∧
      "View" ∉ (runPlugin [] progC1).1 :=
  ⟨by decide, by decide,
   c1_protection_invariant [] progC1 "View" (by decide) (by decide)⟩

/-- Characterization of the annotation line set. -/
theorem findLines_mem (comments : List Comment) (n : Nat) :
    n ∈ findEmployeeCodeCommentLines comments ↔
      ∃ c ∈ comments, isEmployeeCodeComment c = true ∧
        ∃ l, c.loc = some l ∧ (n = l ∨ n = l + 1) := by
  induction comments with
  | nil => simp [findEmployeeCodeCommentLines]
  | cons c rest ih =>
    unfold findEmployeeCodeCommentLines
    rw [List.mem_append, ih]
    constructor
    · rintro (h | ⟨c2, hc2, hm, l, hl, hn⟩)
      · by_cases hm : isEmployeeCodeComment c = true
        · rw [if_pos hm] at h
          cases hloc : c.loc with
          | none => rw [hloc] at h; simp at h
          | some l =>
            rw [hloc] at h
            refine ⟨c, List.mem_cons_self _ _, hm, l, hloc, ?_⟩
            simpa using h
        · rw [if_neg hm] at h; simp at h
      · exact ⟨c2, List.mem_cons_of_mem _ hc2, hm, l, hl, hn⟩
    · rintro ⟨c2, hc2, hm, l, hl, hn⟩
      rcases List.mem_cons.mp hc2 with h1 | h1
      · subst h1
        left
        rw [if_pos hm, hl]
        simpa using hn
      · exact Or.inr ⟨c2, h1, hm, l, hl, hn⟩

/-- C9: the annotation line set holds exactly the start line of each marker
comment and the following line; the line heuristic fires only when the
element start line is in the set; hence an element whose start line is two
or more lines past every marker comment (or above it) is never removed by
this rule. -/
theorem c9_line_heuristic :
    (∀ comments n, n ∈ findEmployeeCodeCommentLines comments ↔
       ∃ c ∈ comments, isEmployeeCodeComment c = true ∧
         ∃ l, c.loc = some l ∧ (n = l ∨ n = l + 1)) ∧
    (∀ ls sl, lineHeuristicFires ls sl = true → ∃ n, sl = some n ∧ n ∈ ls) ∧
    (∀ comments n,
       (∀ c ∈ comments, isEmployeeCodeComment c = true →
          ∀ l, c.loc = some l → l + 2 ≤ n ∨ n < l) →
       lineHeuristicFires (findEmployeeCodeCommentLines comments) (some n) = false) := by
  refine ⟨findLines_mem, ?_, ?_⟩
  · intro ls sl h
    cases sl with
    | none => simp [lineHeuristicFires] at h
    | some n => exact ⟨n, rfl, by simpa [lineHeuristicFires] using h⟩
  · intro comments n h
    simp only [lineHeuristicFires, decide_eq_false_iff_not]
    rw [findLines_mem]
    rintro ⟨c, hc, hm, l, hl, hn⟩
    rcases h c hc hm l hl with h2 | h2 <;> omega

/-- C9 witness: a marker comment on line 2 does not remove an element
starting at line 4. -/
theorem c9_witness :
    lineHeuristicFires
      (findEmployeeCodeCommentLines [markerComment]) (some 4) = false :=
  c9_line_heuristic.2.2 [markerComment] 4 (by decide)

/-- A marked style property is tracked under its composite key. -/
theorem seedStyleProps_adds (ps : List StyleProp) :
    ∀ t p, p ∈ ps →
      (hasEmployeeCodeComment p.leading || hasEmployeeCodeComment p.trailing) = true →
      ("styles." ++ p.key) ∈ seedStyleProps t ps := by
  induction ps with
  | nil => intro t p h; simp at h
  | cons q rest ih =>
    intro t p hp hm
    rcases List.mem_cons.mp hp with h1 | h1
    · subst h1
      unfold seedStyleProps
      rw [if_pos hm]
      exact monoSeedStyleProps rest _ _ (self_mem_trackAdd _ _)
    · unfold seedStyleProps
      split
      · exact ih _ _ h1 hm
      · exact ih _ _ h1 hm

/-- C4: a style-table entry of a StyleSheet.create call carrying a direct
annotation is tracked during seeding under the composite key, and every JSX
element whose style attribute references a tracked composite key is removed
whole, with no annotation of its own required. -/
theorem c4_style_cascade :
    (∀ t props p, p ∈ props →
       (hasEmployeeCodeComment p.leading || hasEmployeeCodeComment p.trailing) = true →
       ("styles." ++ p.key) ∈ seedExpr t (Expr.styleCreate props)) ∧
    (∀ t ls tag leading trailing oLead oTrail startLine o pn children,
       ("styles." ++ pn) ∈ t →
       transformExpr t ls
         (Expr.jsx tag leading trailing oLead oTrail startLine (some (o, pn)) children)
         = (t, none)) := by
  constructor
  · intro t props p hp hm
    exact seedStyleProps_adds props t p hp hm
  · intro t ls tag leading trailing oLead oTrail startLine o pn children h
    have hs : shouldRemoveJSX t ls leading trailing oLead oTrail tag startLine
        (some (o, pn)) = true := by
      simp [shouldRemoveJSX, hasStyleMatch, h]
    simp [transformExpr, hs]

/-- C4 witness: the marked entry debugPanel is tracked, and an unannotated
element with style attribute styles.debugPanel is removed. -/
theorem c4_witness :
    ("styles." ++ "debugPanel") ∈
      seedExpr [] (Expr.styleCreate [⟨"debugPanel", [markerComment], []⟩]) ∧
    transformExpr ["styles.debugPanel"] []
      (Expr.jsx "View" [] [] [] [] (some 8) (some ("styles", "debugPanel")) ExprList.nil)
      = (["styles.debugPanel"], none) :=
  ⟨c4_style_cascade.1 [] [⟨"debugPanel", [markerComment], []⟩]
      ⟨"debugPanel", [markerComment], []⟩ (by decide) (by decide),
   c4_style_cascade.2 ["styles.debugPanel"] [] "View" [] [] [] [] (some 8)
      "styles" "debugPanel" ExprList.nil (by decide)⟩

/-- Concrete guarded conditional-render container with the well-known mode
flag, inside which a JSX element is guarded. -/
def exC6 : Expr :=
  Expr.exprContainer [] []
    (Expr.logicalAnd [] [] (Expr.ident "IS_EMPLOYEE_MODE")
      (Expr.jsx "SecretPanel" [] [] [] [] none none ExprList.nil))

/-- C6 counterexample: the engine deletes the whole expression container
rather than replacing its contents with a render-nothing literal. -/
theorem c6_counterexample :
    transformExpr [] [] exC6 = ([], none) ∧
    (transformExpr [] [] exC6).2 ≠ some (Expr.exprContainer [] [] Expr.nullLit) := by
  exact ⟨by decide, by decide⟩

/-- C6 amended: a JSX expression container whose expression is a logical
AND with an identifier left operand that is tracked or is the well-known
mode flag is removed outright by the container visitor, the tracker left
unchanged; the render-nothing replacement branch of the rewriter is
unreachable because container removal takes precedence. -/
theorem c6_container_removed_amended (t : List String) (ls : List Nat)
    (leading trailing la ta : List Comment) (n : String) (r : Expr)
    (h : n ∈ t ∨ n = "IS_EMPLOYEE_MODE") :
    transformExpr t ls
      (Expr.exprContainer leading trailing (Expr.logicalAnd la ta (Expr.ident n) r))
      = (t, none) := by
  have hs : shouldRemoveContainer t leading trailing
      (Expr.logicalAnd la ta (Expr.ident n) r) = true := by
    rcases h with h | h
    · simp [shouldRemoveContainer, isEmployeeAndLeft, h]
    · subst h; simp [shouldRemoveContainer, isEmployeeAndLeft]
  simp [transformExpr, hs]

/-- C6 witness: the amended removal behaviour at a concrete container. -/
theorem c6_witness :
    transformExpr [] []
      (Expr.exprContainer [] []
        (Expr.logicalAnd [] [] (Expr.ident "IS_EMPLOYEE_MODE") Expr.nullLit))
      = ([], none) :=
  c6_container_removed_amended [] [] [] [] [] [] "IS_EMPLOYEE_MODE" Expr.nullLit
    (Or.inr rfl)

/-- Example file: an annotated declaration of Y followed by a declaration
of X initialized by a direct reference to Y. -/
def progC8 : Program :=
  ⟨[markerComment],
   [Stmt.varDecl [markerComment] [] [⟨some "Y", some (Expr.numLit 1)⟩],
    Stmt.varDecl [] [] [⟨some "X", some (Expr.ident "Y")⟩]]⟩

/-- C8 counterexample: after the full pass, the declarator of X survives
with its initializer rewritten to the undefined placeholder, and X is not
in the tracker, refuting the removal and propagation the claim states. -/
theorem c8_counterexample :
    (runPlugin [] progC8).1 = ["Y"] ∧
    (runPlugin [] progC8).2.body
      = [Stmt.varDecl [] [] [⟨some "X", some (Expr.ident "undefined")⟩]] := by
  exact ⟨by decide, by decide⟩

/-- C8 amended: a declarator whose initializer references a tracked name is
kept, its own name is never tracked, and only the initializer identifier is
replaced by the undefined placeholder; the one-hop propagation branch of
shouldRemoveNode is unreachable since that function is invoked only on JSX
elements and JSX expression containers. -/
theorem c8_no_propagation_amended (t : List String) (ls : List Nat)
    (prev : Option Stmt) (leading trailing : List Comment) (X Y : String)
    (hm : hasEmployeeCodeComment leading = false)
    (hm2 : hasEmployeeCodeComment trailing = false)
    (hY : Y ∈ t) (hYc : Y ∉ CRITICAL_IMPORTS)
    (hX : X ∉ t) (hXc : X ∉ CRITICAL_IMPORTS) :
    transformStmt t ls prev (Stmt.varDecl leading trailing [⟨some X, some (Expr.ident Y)⟩])
      = (t, some (Stmt.varDecl leading trailing [⟨some X, some (Expr.ident "undefined")⟩])) := by
  simp [transformStmt, hm, hm2, transformDecls, transformExpr, identRewrite,
    hY, hYc, hX, hXc]

/-- C8 witness: the amended behaviour at a concrete tracker and declarator. -/
theorem c8_witness :
    ("Y" ∈ ["Y"] ∧ "X" ∉ ["Y"]) ∧
    transformStmt ["Y"] [] none (Stmt.varDecl [] [] [⟨some "X", some (Expr.ident "Y")⟩])
      = (["Y"], some (Stmt.varDecl [] [] [⟨some "X", some (Expr.ident "undefined")⟩])) :=
  ⟨⟨by decide, by decide⟩,
   c8_no_propagation_amended ["Y"] [] none [] [] "X" "Y" (by decide) (by decide)
     (by decide) (by decide) (by decide) (by decide)⟩

/-- Marker comment located at line 5, inside the markup of progC7. -/
def cm5 : Comment := ⟨" @employee-code ", some 5⟩

/-- The unannotated declaration of the mode flag. -/
def progC7s1 : Stmt := Stmt.varDecl [] [] [⟨some "FLAG_MODE", some (Expr.boolLit true)⟩]

/-- The annotated declaration of SECRET. -/
def progC7s2 : Stmt := Stmt.varDecl [markerComment] [] [⟨some "SECRET", some (Expr.numLit 1)⟩]

/-- The markup statement whose guarded logical AND carries the marker. -/
def progC7s3 : Stmt :=
  Stmt.exprStmt [] []
    (Expr.jsx "View" [] [] [] [] (some 4) none
      (ExprList.cons
        (Expr.exprContainer [] []
          (Expr.logicalAnd [cm5] [] (Expr.ident "FLAG_MODE")
            (Expr.jsx "Secret" [] [] [] [] (some 7) none ExprList.nil)))
        ExprList.nil))

/-- The mode-flag scenario file of the spec. -/
def progC7 : Program := ⟨[markerComment, cm5], [progC7s1, progC7s2, progC7s3]⟩

/-- The markup statement the claim expects, the guarded expression replaced
by literal false. -/
def progC7claimed : Stmt :=
  Stmt.exprStmt [] []
    (Expr.jsx "View" [] [] [] [] (some 4) none
      (ExprList.cons (Expr.exprContainer [] [] (Expr.boolLit false)) ExprList.nil))

/-- C7 counterexample: on the mode-flag scenario input the SECRET
declaration is removed and FLAG_MODE survives, but the annotated logical
AND whose left operand is FLAG_MODE is left untouched, not replaced by
literal false as the claim states. -/
theorem c7_counterexample :
    runPlugin [] progC7 = (["SECRET"], ⟨[markerComment, cm5], [progC7s1, progC7s3]⟩) ∧
    (runPlugin [] progC7).2.body ≠ [progC7s1, progC7claimed] := by
  exact ⟨by decide, by decide⟩

/-- C7 amended: on the scenario input the SECRET declaration is removed and
tracked, FLAG_MODE survives, and the annotated logical AND survives
unreplaced; the replacement by literal false happens exactly when the left
operand is the well-known identifier IS_EMPLOYEE_MODE. -/
theorem c7_mode_flag_amended :
    (runPlugin [] progC7 = (["SECRET"], ⟨[markerComment, cm5], [progC7s1, progC7s3]⟩)) ∧
    (∀ t ls leading trailing r,
       hasEmployeeCodeComment (leading ++ trailing) = true →
       transformExpr t ls
         (Expr.logicalAnd leading trailing (Expr.ident "IS_EMPLOYEE_MODE") r)
         = (t, some (Expr.boolLit false))) := by
  constructor
  · decide
  · intro t ls leading trailing r h
    have hg : logicalReplaceGuard leading trailing (Expr.ident "IS_EMPLOYEE_MODE") = true := by
      simp [logicalReplaceGuard, leftIsModeFlag, h]
    simp [transformExpr, hg]

/-- C7 witness: the replacement rule applied at a concrete annotated
logical AND with the well-known mode flag. -/
theorem c7_witness :
    hasEmployeeCodeComment ([markerComment] ++ []) = true ∧
    transformExpr [] []
      (Expr.logicalAnd [markerComment] [] (Expr.ident "IS_EMPLOYEE_MODE") Expr.nullLit)
      = ([], some (Expr.boolLit false)) :=
  ⟨by decide, c7_mode_flag_amended.2 [] [] [markerComment] [] Expr.nullLit (by decide)⟩

/-- A name not in the tracker is left unchanged by the rewriter. -/
theorem identRewrite_eq_self {t : List String} {n : String} (h : n ∉ t) :
    identRewrite t n = n := by
  simp [identRewrite, h]

/-- A specifier none of whose local names are tracked is left unchanged. -/
theorem rewriteSpec_eq_self (t : List String) (s : ImportSpec)
    (h : ∀ n, s.localName = some n → n ∉ t) : rewriteSpec t s = s := by
  obtain ⟨k, imp, loc⟩ := s
  cases k with
  | namedSpec => rfl
  | defaultSpec => rfl
  | namespaceSpec =>
    simp only [rewriteSpec]
    cases loc with
    | none => rfl
    | some n => simp [identRewrite_eq_self (h n rfl)]

/-- A specifier list none of whose local names are tracked is unchanged. -/
theorem map_rewriteSpec_eq_self (t : List String) (specs : List ImportSpec)
    (h : ∀ n ∈ localNames specs, n ∉ t) : specs.map (rewriteSpec t) = specs := by
  induction specs with
  | nil => rfl
  | cons s rest ih =>
    have h1 : ∀ n, s.localName = some n → n ∉ t := by
      intro n hn
      refine h n ?_
      simp [localNames, List.filterMap_cons, hn]
    have h2 : ∀ n ∈ localNames rest, n ∉ t := by
      intro n hn
      refine h n ?_
      simp only [localNames, List.filterMap_cons]
      cases s.localName <;> simp [localNames] at hn ⊢ <;> try exact hn
      exact Or.inr hn
    rw [List.map_cons, rewriteSpec_eq_self t s h1, ih h2]

/-- Example file: a directly annotated import of the core rendering module. -/
def progC5 : Program :=
  ⟨[markerComment],
   [Stmt.importDecl [markerComment] [] "react-native"
      [⟨SpecKind.namedSpec, some "View", some "View"⟩]]⟩

/-- C5: an annotated import declaration whose module or whose imported
names are protected is kept unchanged, the tracker is unchanged by its
visit, and no error is raised; concretely, the annotated react-native
file passes through the whole plugin run untouched with an empty
report. -/
theorem c5_critical_import_downgrade :
    (∀ t ls prev leading trailing source specs,
       (hasEmployeeCodeComment leading || hasEmployeeCodeComment trailing) = true →
       isCriticalImport source (importedNames specs) = true →
       (∀ n ∈ localNames specs, n ∉ t) →
       transformStmt t ls prev (Stmt.importDecl leading trailing source specs)
         = (t, some (Stmt.importDecl leading trailing source specs))) ∧
    runPlugin [] progC5 = ([], progC5) := by
  constructor
  · intro t ls prev leading trailing source specs hmark hcrit hlocal
    simp only [transformStmt]
    by_cases hr : (source == "react/jsx-runtime" || source == "react/jsx-dev-runtime") = true
    · rw [if_pos hr, map_rewriteSpec_eq_self t specs hlocal]
    · rw [if_neg hr, if_pos (by simp [hmark]), if_pos hcrit,
        map_rewriteSpec_eq_self t specs hlocal]
  · decide

/-- C5 witness: the downgrade applied to a concrete annotated critical
module with an empty tracker. -/
theorem c5_witness :
    (hasEmployeeCodeComment [markerComment] || hasEmployeeCodeComment []) = true ∧
    isCriticalImport "react-native"
      (importedNames [⟨SpecKind.namedSpec, some "View", some "View"⟩]) = true ∧
    transformStmt [] [] none
      (Stmt.importDecl [markerComment] [] "react-native"
        [⟨SpecKind.namedSpec, some "View", some "View"⟩])
      = ([], some (Stmt.importDecl [markerComment] [] "react-native"
          [⟨SpecKind.namedSpec, some "View", some "View"⟩])) :=
  ⟨by decide, by decide,
   c5_critical_import_downgrade.1 [] [] none [markerComment] [] "react-native"
     [⟨SpecKind.namedSpec, some "View", some "View"⟩] (by decide) (by decide)
     (by decide)⟩

/-- First build file: an annotated declaration of SECRET. -/
def progC2a : Program :=
  ⟨[markerComment], [Stmt.varDecl [markerComment] [] [⟨some "SECRET", some (Expr.numLit 1)⟩]]⟩

/-- Second build file: an unannotated markup element named SECRET, with no
marker comment anywhere in the file. -/
def progC2b : Program :=
  ⟨[], [Stmt.exprStmt [] [] (Expr.jsx "SECRET" [] [] [] [] (some 1) none ExprList.nil)]⟩

/-- C2: the tracker lives in the plugin-factory closure and is threaded
across files of one build; processing the second file alone keeps its
markup, while processing it after the first file, whose run tracked SECRET,
deletes the markup of the second file even though the second file carries
no annotation at all. -/
theorem c2_cross_file_leak :
    (runPlugin [] progC2a).1 = ["SECRET"] ∧
    (runPlugin [] progC2b).2.body = progC2b.body ∧
    (runPlugin (runPlugin [] progC2a).1 progC2b).2.body = [] := by
  exact ⟨by decide, by decide, by decide⟩

/-- Example file: a reference to X in statement order before the
annotated import declaring X. -/
def progC3 : Program :=
  ⟨[markerComment],
   [Stmt.exprStmt [] [] (Expr.ident "X"),
    Stmt.importDecl [markerComment] [] "some-module"
      [⟨SpecKind.namedSpec, some "X", some "X"⟩]]⟩

/-- C3 counterexample: X enters the tracker when the annotated import is
visited, yet the earlier surviving identifier reference to X is left
unreplaced in the output, refuting the universal cascade claim. -/
theorem c3_counterexample :
    (runPlugin [] progC3).1 = ["X"] ∧
    (runPlugin [] progC3).2.body = [Stmt.exprStmt [] [] (Expr.ident "X")] := by
  exact ⟨by decide, by decide⟩

mutual
/-- An expression mentions N: an identifier occurrence, a member-expression
component, a JSX tag, or a style-attribute component equal to N. -/
def ExprMentions (N : String) : Expr → Prop
  | .ident n => n = N
  | .member o p => o = N ∨ p = N
  | .logicalAnd _ _ l r => ExprMentions N l ∨ ExprMentions N r
  | .exprContainer _ _ inner => ExprMentions N inner
  | .jsx tag _ _ _ _ _ sa children =>
      tag = N ∨ (∃ op, sa = some op ∧ (op.1 = N ∨ op.2 = N)) ∨
        ExprListMentions N children
  | _ => False
/-- A children sequence mentions N. -/
def ExprListMentions (N : String) : ExprList → Prop
  | .nil => False
  | .cons e rest => ExprMentions N e ∨ ExprListMentions N rest
end

/-- A declarator binds or references N. -/
def DeclMentions (N : String) (d : Declarator) : Prop :=
  d.idName = some N ∨ ∃ e, d.init = some e ∧ ExprMentions N e

/-- A statement mentions N outside the binding syntax of imports. -/
def StmtMentions (N : String) : Stmt → Prop
  | .varDecl _ _ ds => ∃ d ∈ ds, DeclMentions N d
  | .funcDecl _ _ name => name = N
  | .exprStmt _ _ e => ExprMentions N e
  | .importDecl _ _ _ _ => False

/-- The rewriter never produces a tracked non-critical name other than the
undefined placeholder. -/
theorem identRewrite_ne {t : List String} {N : String}
    (hN : N ∈ t) (hNc : N ∉ CRITICAL_IMPORTS) (hNu : N ≠ "undefined") (n : String) :
    identRewrite t n ≠ N := by
  unfold identRewrite
  by_cases h1 : n ∈ CRITICAL_IMPORTS
  · rw [if_pos h1]; intro h; subst h; exact hNc h1
  · rw [if_neg h1]
    by_cases h2 : n ∈ t
    · rw [if_pos h2]; exact fun h => hNu h.symm
    · rw [if_neg h2]; intro h; subst h; exact h2 hN

mutual
theorem noMentionsTransformExpr (e : Expr) :
    ∀ t ls N e2, N ∈ t → N ∉ CRITICAL_IMPORTS → N ≠ "undefined" →
      (transformExpr t ls e).2 = some e2 → ¬ ExprMentions N e2 := by
  cases e with
  | ident n =>
    intro t ls N e2 hN hNc hNu h
    injection h with h2
    subst h2
    exact fun hm => identRewrite_ne hN hNc hNu n hm
  | numLit n =>
    intro t ls N e2 hN hNc hNu h
    injection h with h2; subst h2; exact fun hm => hm
  | boolLit b =>
    intro t ls N e2 hN hNc hNu h
    injection h with h2; subst h2; exact fun hm => hm
  | nullLit =>
    intro t ls N e2 hN hNc hNu h
    injection h with h2; subst h2; exact fun hm => hm
  | removedHole =>
    intro t ls N e2 hN hNc hNu h
    injection h with h2; subst h2; exact fun hm => hm
  | member o p =>
    intro t ls N e2 hN hNc hNu h
    injection h with h2
    subst h2
    rintro (hm | hm)
    · exact identRewrite_ne hN hNc hNu o hm
    · exact identRewrite_ne hN hNc hNu p hm
  | logicalAnd a b l r =>
    intro t ls N e2 hN hNc hNu h
    simp only [transformExpr] at h
    split at h
    · injection h with h2; subst h2; exact fun hm => hm
    · injection h with h2
      subst h2
      rintro (hm | hm)
      · cases hcl : (transformExpr t ls l).2 with
        | none => rw [hcl] at hm; exact hm
        | some l2 =>
          rw [hcl] at hm
          exact noMentionsTransformExpr l t ls N l2 hN hNc hNu hcl hm
      · have hN2 : N ∈ (transformExpr t ls l).1 := monoTransformExpr l _ _ _ hN
        cases hcr : (transformExpr (transformExpr t ls l).1 ls r).2 with
        | none => rw [hcr] at hm; exact hm
        | some r2 =>
          rw [hcr] at hm
          exact noMentionsTransformExpr r _ ls N r2 hN2 hNc hNu hcr hm
  | styleCreate props =>
    intro t ls N e2 hN hNc hNu h
    simp only [transformExpr] at h
    injection h with h2; subst h2; exact fun hm => hm
  | exprContainer a b inner =>
    intro t ls N e2 hN hNc hNu h
    simp only [transformExpr] at h
    split at h
    · exact absurd h (by simp)
    · injection h with h2
      subst h2
      intro hm
      cases hci : (transformExpr t ls inner).2 with
      | none =>
        rw [hci] at hm
        exact hm
      | some i2 =>
        rw [hci] at hm
        exact noMentionsTransformExpr inner t ls N i2 hN hNc hNu hci hm
  | jsx tag a b c d sl sa children =>
    intro t ls N e2 hN hNc hNu h
    simp only [transformExpr] at h
    by_cases hsr : shouldRemoveJSX t ls a b c d tag sl sa = true
    · rw [if_pos hsr] at h; exact absurd h (by simp)
    · rw [if_neg hsr] at h
      split at h
      · exact absurd h (by simp)
      · injection h with h2
        subst h2
        rintro (hm | ⟨op, hop, hcomp⟩ | hm)
        · have : decide (tag ∈ t) = false := by
            revert hsr
            simp [shouldRemoveJSX]
            intro h1 h2 h3 h4 h5 h6
            simpa using h4
          subst hm
          simp at this
          exact this hN
        · cases sa with
          | none => simp at hop
          | some op0 =>
            injection hop with hop2
            subst hop2
            rcases hcomp with hc | hc
            · exact identRewrite_ne hN hNc hNu op0.1 hc
            · exact identRewrite_ne hN hNc hNu op0.2 hc
        · exact noMentionsTransformExprList children t ls N hN hNc hNu hm

theorem noMentionsTransformExprList (es : ExprList) :
    ∀ t ls N, N ∈ t → N ∉ CRITICAL_IMPORTS → N ≠ "undefined" →
      ¬ ExprListMentions N (transformExprList t ls es).2 := by
  cases es with
  | nil =>
    intro t ls N hN hNc hNu
    exact fun hm => hm
  | cons e rest =>
    intro t ls N hN hNc hNu
    simp only [transformExprList]
    cases hce : (transformExpr t ls e).2 with
    | none =>
      exact noMentionsTransformExprList rest _ ls N
        (monoTransformExpr e _ _ _ hN) hNc hNu
    | some e2 =>
      rintro (hm | hm)
      · exact noMentionsTransformExpr e t ls N e2 hN hNc hNu hce hm
      · exact noMentionsTransformExprList rest _ ls N
          (monoTransformExpr e _ _ _ hN) hNc hNu hm
end

theorem noMentionsTransformDecls (ds : List Declarator) :
    ∀ t ls N, N ∈ t → N ∉ CRITICAL_IMPORTS → N ≠ "undefined" →
      ∀ d2 ∈ (transformDecls t ls ds).2, ¬ DeclMentions N d2 := by
  induction ds with
  | nil => intro t ls N hN hNc hNu d2 h; simp [transformDecls] at h
  | cons d rest ih =>
    intro t ls N hN hNc hNu d2 h
    simp only [transformDecls] at h
    rcases List.mem_cons.mp h with h1 | h1
    · subst h1
      rintro (hm | ⟨e, he, hem⟩)
      · revert hm
        cases hid : d.idName with
        | none => simp
        | some x =>
          simp only [Option.map_some]
          intro hm
          injection hm with hm2
          exact identRewrite_ne hN hNc hNu x hm2
      · revert he
        cases hinit : d.init with
        | none => simp
        | some e0 =>
          simp only
          intro he
          exact noMentionsTransformExpr e0 t ls N e hN hNc hNu he hem
    · revert h1
      cases hinit : d.init with
      | none =>
        intro h1
        exact ih t ls N hN hNc hNu d2 h1
      | some e0 =>
        intro h1
        exact ih _ ls N (monoTransformExpr e0 _ _ _ hN) hNc hNu d2 h1

theorem noMentionsTransformStmt (s : Stmt) :
    ∀ t ls prev N s2, N ∈ t → N ∉ CRITICAL_IMPORTS → N ≠ "undefined" →
      (transformStmt t ls prev s).2 = some s2 → ¬ StmtMentions N s2 := by
  cases s with
  | importDecl leading trailing source specs =>
    intro t ls prev N s2 hN hNc hNu h
    simp only [transformStmt] at h
    split at h
    · injection h with h2; subst h2; exact fun hm => hm
    · split at h
      · split at h
        · injection h with h2; subst h2; exact fun hm => hm
        · exact absurd h (by simp)
      · injection h with h2; subst h2; exact fun hm => hm
  | varDecl leading trailing ds =>
    intro t ls prev N s2 hN hNc hNu h
    simp only [transformStmt] at h
    split at h
    · exact absurd h (by simp)
    · injection h with h2
      subst h2
      rintro ⟨d2, hd2, hdm⟩
      exact noMentionsTransformDecls ds t ls N hN hNc hNu d2 hd2 hdm
  | funcDecl leading trailing name =>
    intro t ls prev N s2 hN hNc hNu h
    simp only [transformStmt] at h
    split at h
    · exact absurd h (by simp)
    · injection h with h2
      subst h2
      intro hm
      exact identRewrite_ne hN hNc hNu name hm
  | exprStmt leading trailing e =>
    intro t ls prev N s2 hN hNc hNu h
    simp only [transformStmt] at h
    split at h
    · exact absurd h (by simp)
    · cases hce : (transformExpr t ls e).2 with
      | none => rw [hce] at h; exact absurd h (by simp)
      | some e2 =>
        rw [hce] at h
        injection h with h2
        subst h2
        intro hm
        exact noMentionsTransformExpr e t ls N e2 hN hNc hNu hce hm

theorem noMentionsTransformStmts (ss : List Stmt) :
    ∀ t ls prev N, N ∈ t → N ∉ CRITICAL_IMPORTS → N ≠ "undefined" →
      ∀ s2 ∈ (transformStmts t ls prev ss).2, ¬ StmtMentions N s2 := by
  induction ss with
  | nil => intro t ls prev N hN hNc hNu s2 h; simp [transformStmts] at h
  | cons s rest ih =>
    intro t ls prev N hN hNc hNu s2 h
    cases hcs : (transformStmt t ls prev s).2 with
    | none =>
      simp only [transformStmts, hcs] at h
      exact ih _ ls prev N (monoTransformStmt s _ _ _ _ hN) hNc hNu s2 h
    | some s0 =>
      simp only [transformStmts, hcs] at h
      rcases List.mem_cons.mp h with h1 | h1
      · subst h1
        exact noMentionsTransformStmt s t ls prev N s2 hN hNc hNu hcs
      · exact ih _ ls (some s0) N (monoTransformStmt s _ _ _ _ hN) hNc hNu s2 h1

/-- C3 amended: a name tracked during the seeding phase, not critical and
distinct from the undefined placeholder, is absent from the output: no
surviving statement mentions it through an identifier occurrence outside
the binding syntax of imports, a member-expression component, a JSX tag,
a style-attribute component, a declarator binding, or a function name. -/
theorem c3_cascade_amended (p : Program) (N : String)
    (h1 : N ∈ (seedStmts [] p.body).1) (h2 : N ∉ CRITICAL_IMPORTS)
    (h3 : N ≠ "undefined") :
    ∀ s ∈ (runPlugin [] p).2.body, ¬ StmtMentions N s := by
  intro s hs
  simp only [runPlugin] at hs
  exact noMentionsTransformStmts _ _ _ _ _ h1 h2 h3 _ hs

/-- Example file: an annotated declaration of SECRET followed by markup and
an expression statement that reference SECRET. -/
def progC3W : Program :=
  ⟨[markerComment],
   [Stmt.varDecl [markerComment] [] [⟨some "SECRET", some (Expr.numLit 1)⟩],
    Stmt.exprStmt [] []
      (Expr.jsx "View" [] [] [] [] (some 9) none
        (ExprList.cons (Expr.jsx "SECRET" [] [] [] [] (some 9) none ExprList.nil)
          (ExprList.cons (Expr.exprContainer [] [] (Expr.ident "SECRET"))
            ExprList.nil)))]⟩

/-- C3 witness: the amended cascade applied to a concrete file whose
seeding tracks SECRET. -/
theorem c3_witness :
    "SECRET" ∈ (seedStmts [] progC3W.body).1 ∧ "SECRET" ∉ CRITICAL_IMPORTS ∧
      "SECRET" ≠ "undefined" ∧
      ∀ s ∈ (runPlugin [] progC3W).2.body, ¬ StmtMentions "SECRET" s :=
  ⟨by decide, by decide, by decide,
   c3_cascade_amended progC3W "SECRET" (by decide) (by decide) (by decide)⟩

mutual
/-- Normal form of expressions surviving a pass: no node carries a marker
that a second pass with an empty tracker could act on, no surviving
container holds a mode-flag logical AND, and no surviving element sits on
an annotation line. -/
def CleanExpr (ls : List Nat) : Expr → Prop
  | .logicalAnd leading trailing l r =>
      logicalReplaceGuard leading trailing l = false ∧ CleanExpr ls l ∧ CleanExpr ls r
  | .styleCreate props =>
      ∀ p ∈ props,
        (hasEmployeeCodeComment p.leading || hasEmployeeCodeComment p.trailing) = false
  | .exprContainer leading trailing inner =>
      hasEmployeeCodeComment (leading ++ trailing) = false ∧
      isEmployeeAndLeft [] inner = false ∧ CleanExpr ls inner
  | .jsx _ leading trailing oLead oTrail startLine _ children =>
      hasEmployeeCodeComment (leading ++ trailing) = false ∧
      hasEmployeeCodeComment oLead = false ∧ hasEmployeeCodeComment oTrail = false ∧
      lineHeuristicFires ls startLine = false ∧
      CleanExprList ls children
  | _ => True
/-- Normal form of a surviving children sequence. -/
def CleanExprList (ls : List Nat) : ExprList → Prop
  | .nil => True
  | .cons e rest => CleanExpr ls e ∧ CleanExprList ls rest
end

/-- Normal form of a surviving statement, relative to its surviving
previous sibling. -/
def CleanStmt (ls : List Nat) (prev : Option Stmt) : Stmt → Prop
  | .importDecl leading trailing source specs =>
      (source == "react/jsx-runtime" || source == "react/jsx-dev-runtime") = true ∨
      ((hasEmployeeCodeComment leading || hasEmployeeCodeComment trailing) ||
        prevHasMarker prev) = false ∨
      isCriticalImport source (importedNames specs) = true
  | .varDecl leading trailing ds =>
      (hasEmployeeCodeComment leading || hasEmployeeCodeComment trailing) = false ∧
      ∀ d ∈ ds, ∀ e, d.init = some e → CleanExpr ls e
  | .funcDecl leading trailing _ =>
      (hasEmployeeCodeComment leading || hasEmployeeCodeComment trailing) = false
  | .exprStmt leading trailing e =>
      (hasEmployeeCodeComment leading || hasEmployeeCodeComment trailing) = false ∧
      CleanExpr ls e

/-- Normal form of a surviving statement list with sibling threading. -/
def CleanStmts (ls : List Nat) : Option Stmt → List Stmt → Prop
  | _, [] => True
  | prev, s :: rest => CleanStmt ls prev s ∧ CleanStmts ls (some s) rest

/-- The rewriter is the identity under an empty tracker. -/
theorem identRewrite_nil (n : String) : identRewrite [] n = n := by
  simp [identRewrite]

/-- Specifier rewriting is the identity under an empty tracker. -/
theorem map_rewriteSpec_nil (specs : List ImportSpec) :
    specs.map (rewriteSpec []) = specs :=
  map_rewriteSpec_eq_self [] specs (by simp)

/-- Unmarked style properties pass through the main pass unchanged. -/
theorem idStyleProps (ps : List StyleProp)
    (h : ∀ p ∈ ps,
      (hasEmployeeCodeComment p.leading || hasEmployeeCodeComment p.trailing) = false) :
    transformStyleProps [] ps = ([], ps) := by
  induction ps with
  | nil => rfl
  | cons p rest ih =>
    have hp := h p (List.mem_cons_self _ _)
    unfold transformStyleProps
    rw [if_neg (by simp [hp])]
    rw [ih (fun q hq => h q (List.mem_cons_of_mem _ hq))]
    simp [identRewrite_nil]

/-- The style-match clause never fires under an empty tracker. -/
theorem hasStyleMatch_nil (sa : Option (String × String)) :
    hasStyleMatch [] sa = false := by
  cases sa <;> simp [hasStyleMatch]

/-- The second style check never fires under an empty tracker. -/
theorem elseStyleRemove_nil (sa : Option (String × String)) :
    elseStyleRemove [] sa = false := by
  cases sa <;> simp [elseStyleRemove]

mutual
theorem idTransformExpr (e : Expr) :
    ∀ ls, CleanExpr ls e → transformExpr [] ls e = ([], some e) := by
  cases e with
  | ident n => intro ls h; simp [transformExpr, identRewrite_nil]
  | numLit n => intro ls h; rfl
  | boolLit b => intro ls h; rfl
  | nullLit => intro ls h; rfl
  | removedHole => intro ls h; rfl
  | member o p => intro ls h; simp [transformExpr, identRewrite_nil]
  | logicalAnd a b l r =>
    intro ls h
    obtain ⟨hg, hl, hr⟩ := h
    simp only [transformExpr]
    rw [if_neg (by simp [hg])]
    rw [idTransformExpr l ls hl, idTransformExpr r ls hr]
    rfl
  | styleCreate props =>
    intro ls h
    simp only [transformExpr]
    rw [idStyleProps props h]
  | exprContainer a b inner =>
    intro ls h
    obtain ⟨hm, hil, hi⟩ := h
    simp only [transformExpr]
    rw [if_neg (by simp [shouldRemoveContainer, hm, hil])]
    rw [idTransformExpr inner ls hi]
    rfl
  | jsx tag a b c d sl sa children =>
    intro ls h
    obtain ⟨hm, ho1, ho2, hline, hch⟩ := h
    simp only [transformExpr]
    rw [if_neg (by
      simp [shouldRemoveJSX, hm, ho1, ho2, hline, hasStyleMatch_nil])]
    rw [if_neg (by simp [elseStyleRemove_nil])]
    rw [idTransformExprList children ls hch]
    cases sa with
    | none => rfl
    | some op => simp [identRewrite_nil]

theorem idTransformExprList (es : ExprList) :
    ∀ ls, CleanExprList ls es → transformExprList [] ls es = ([], es) := by
  cases es with
  | nil => intro ls h; rfl
  | cons e rest =>
    intro ls h
    obtain ⟨he, hrest⟩ := h
    simp only [transformExprList]
    rw [idTransformExpr e ls he, idTransformExprList rest ls hrest]
end

theorem idTransformDecls (ds : List Declarator) :
    ∀ ls, (∀ d ∈ ds, ∀ e, d.init = some e → CleanExpr ls e) →
      transformDecls [] ls ds = ([], ds) := by
  induction ds with
  | nil => intro ls h; rfl
  | cons d rest ih =>
    intro ls h
    obtain ⟨di, dinit⟩ := d
    have hinit : (match dinit with
        | some e => transformExpr [] ls e
        | none => (([] : List String), (none : Option Expr))) = ([], dinit) := by
      cases dinit with
      | none => rfl
      | some e0 =>
        exact idTransformExpr e0 ls (h ⟨di, some e0⟩ (List.mem_cons_self _ _) e0 rfl)
    have hrest := ih ls (fun q hq => h q (List.mem_cons_of_mem _ hq))
    simp only [transformDecls, hinit, hrest]
    cases di <;> simp [identRewrite_nil]

theorem idTransformStmt (s : Stmt) :
    ∀ ls prev, CleanStmt ls prev s → transformStmt [] ls prev s = ([], some s) := by
  cases s with
  | importDecl leading trailing source specs =>
    intro ls prev h
    simp only [transformStmt]
    by_cases hr : (source == "react/jsx-runtime" || source == "react/jsx-dev-runtime") = true
    · rw [if_pos hr, map_rewriteSpec_nil]
    · rw [if_neg hr]
      rcases h with h | h | h
      · exact absurd h hr
      · rw [if_neg (by simp [h]), map_rewriteSpec_nil]
      · by_cases hc : ((hasEmployeeCodeComment leading || hasEmployeeCodeComment trailing) ||
            prevHasMarker prev) = true
        · rw [if_pos hc, if_pos h, map_rewriteSpec_nil]
        · rw [if_neg hc, map_rewriteSpec_nil]
  | varDecl leading trailing ds =>
    intro ls prev h
    obtain ⟨hm, hds⟩ := h
    simp only [transformStmt]
    rw [if_neg (by simp [hm])]
    rw [idTransformDecls ds ls hds]
  | funcDecl leading trailing name =>
    intro ls prev h
    have h2 : (hasEmployeeCodeComment leading || hasEmployeeCodeComment trailing) = false := h
    simp only [transformStmt]
    rw [if_neg (by simp [h2])]
    rw [identRewrite_nil]
  | exprStmt leading trailing e =>
    intro ls prev h
    obtain ⟨hm, he⟩ := h
    simp only [transformStmt]
    rw [if_neg (by simp [hm])]
    rw [idTransformExpr e ls he]

theorem idTransformStmts (ss : List Stmt) :
    ∀ ls prev, CleanStmts ls prev ss → transformStmts [] ls prev ss = ([], ss) := by
  induction ss with
  | nil => intro ls prev h; rfl
  | cons s rest ih =>
    intro ls prev h
    obtain ⟨hs, hrest⟩ := h
    simp only [transformStmts]
    rw [idTransformStmt s ls prev hs]
    simp only
    rw [ih ls (some s) hrest]

/-- Seeding adds nothing for unmarked style properties. -/
theorem seedStylePropsUnmarked (ps : List StyleProp)
    (h : ∀ p ∈ ps,
      (hasEmployeeCodeComment p.leading || hasEmployeeCodeComment p.trailing) = false) :
    ∀ t, seedStyleProps t ps = t := by
  induction ps with
  | nil => intro t; rfl
  | cons p rest ih =>
    intro t
    unfold seedStyleProps
    rw [if_neg (by simp [h p (List.mem_cons_self _ _)])]
    exact ih (fun q hq => h q (List.mem_cons_of_mem _ hq)) t

mutual
theorem seedExprClean (e : Expr) :
    ∀ ls, CleanExpr ls e → ∀ t, seedExpr t e = t := by
  cases e with
  | ident n => intro ls h t; rfl
  | numLit n => intro ls h t; rfl
  | boolLit b => intro ls h t; rfl
  | nullLit => intro ls h t; rfl
  | removedHole => intro ls h t; rfl
  | member o p => intro ls h t; rfl
  | logicalAnd a b l r =>
    intro ls h t
    obtain ⟨hg, hl, hr⟩ := h
    show seedExpr (seedExpr t l) r = t
    rw [seedExprClean l ls hl t, seedExprClean r ls hr t]
  | styleCreate props =>
    intro ls h t
    exact seedStylePropsUnmarked props h t
  | exprContainer a b inner =>
    intro ls h t
    exact seedExprClean inner ls h.2.2 t
  | jsx tag a b c d sl sa children =>
    intro ls h t
    exact seedExprListClean children ls h.2.2.2.2 t

theorem seedExprListClean (es : ExprList) :
    ∀ ls, CleanExprList ls es → ∀ t, seedExprList t es = t := by
  cases es with
  | nil => intro ls h t; rfl
  | cons e rest =>
    intro ls h t
    show seedExprList (seedExpr t e) rest = t
    rw [seedExprClean e ls h.1 t, seedExprListClean rest ls h.2 t]
end

theorem seedStmtClean (s : Stmt) :
    ∀ ls prev, CleanStmt ls prev s → ∀ t, seedStmt t s = (t, some s) := by
  cases s with
  | importDecl leading trailing source specs => intro ls prev h t; rfl
  | funcDecl leading trailing name => intro ls prev h t; rfl
  | varDecl leading trailing ds =>
    intro ls prev h t
    obtain ⟨hm, hds⟩ := h
    simp only [seedStmt]
    rw [if_neg (by simp [hm])]
    have : seedInits t ds = t := by
      clear hm
      induction ds with
      | nil => rfl
      | cons d rest ih =>
        unfold seedInits
        have hd : (match d.init with
            | some e => seedExpr t e
            | none => t) = t := by
          cases hinit : d.init with
          | none => rfl
          | some e0 =>
            exact seedExprClean e0 ls (hds d (List.mem_cons_self _ _) e0 hinit) t
        rw [hd]
        exact ih (fun q hq => hds q (List.mem_cons_of_mem _ hq))
    rw [this]
  | exprStmt leading trailing e =>
    intro ls prev h t
    simp only [seedStmt]
    rw [seedExprClean e ls h.2 t]

theorem seedStmtsClean (ss : List Stmt) :
    ∀ ls prev, CleanStmts ls prev ss → ∀ t, seedStmts t ss = (t, ss) := by
  induction ss with
  | nil => intro ls prev h t; rfl
  | cons s rest ih =>
    intro ls prev h t
    obtain ⟨hs, hrest⟩ := h
    simp only [seedStmts]
    rw [seedStmtClean s ls prev hs t]
    simp only
    rw [ih ls (some s) hrest t]

/-- The rewriter returns the original name or the undefined placeholder. -/
theorem identRewrite_cases (t : List String) (m : String) :
    identRewrite t m = m ∨ identRewrite t m = "undefined" := by
  unfold identRewrite
  by_cases h1 : m ∈ CRITICAL_IMPORTS
  · rw [if_pos h1]; exact Or.inl rfl
  · rw [if_neg h1]
    by_cases h2 : m ∈ t
    · rw [if_pos h2]; exact Or.inr rfl
    · rw [if_neg h2]; exact Or.inl rfl

/-- Only an identifier node transforms into an identifier node, and then
through the rewriter. -/
theorem transformExpr_some_ident (e : Expr) :
    ∀ t ls n, (transformExpr t ls e).2 = some (Expr.ident n) →
      ∃ m, e = Expr.ident m ∧ n = identRewrite t m := by
  cases e with
  | ident m =>
    intro t ls n h
    injection h with h2
    injection h2 with h3
    exact ⟨m, rfl, h3.symm⟩
  | numLit k => intro t ls n h; simp [transformExpr] at h
  | boolLit b => intro t ls n h; simp [transformExpr] at h
  | nullLit => intro t ls n h; simp [transformExpr] at h
  | removedHole => intro t ls n h; simp [transformExpr] at h
  | member o p => intro t ls n h; simp [transformExpr] at h
  | styleCreate props => intro t ls n h; simp [transformExpr] at h
  | logicalAnd a b l r =>
    intro t ls n h
    simp only [transformExpr] at h
    split at h <;> simp at h
  | exprContainer a b inner =>
    intro t ls n h
    simp only [transformExpr] at h
    split at h <;> simp at h
  | jsx tag a b c d sl sa children =>
    intro t ls n h
    simp only [transformExpr] at h
    split at h
    · simp at h
    · split at h <;> simp at h

/-- Only a logical AND transforms into a logical AND, with the guard false
and both operands transformed in sequence. -/
theorem transformExpr_some_and (e : Expr) :
    ∀ t ls la ta l2 r2,
      (transformExpr t ls e).2 = some (Expr.logicalAnd la ta l2 r2) →
      ∃ l r, e = Expr.logicalAnd la ta l r ∧
        logicalReplaceGuard la ta l = false ∧
        l2 = orHole (transformExpr t ls l).2 ∧
        r2 = orHole (transformExpr (transformExpr t ls l).1 ls r).2 := by
  cases e with
  | ident m => intro t ls la ta l2 r2 h; simp [transformExpr] at h
  | numLit k => intro t ls la ta l2 r2 h; simp [transformExpr] at h
  | boolLit b => intro t ls la ta l2 r2 h; simp [transformExpr] at h
  | nullLit => intro t ls la ta l2 r2 h; simp [transformExpr] at h
  | removedHole => intro t ls la ta l2 r2 h; simp [transformExpr] at h
  | member o p => intro t ls la ta l2 r2 h; simp [transformExpr] at h
  | styleCreate props => intro t ls la ta l2 r2 h; simp [transformExpr] at h
  | logicalAnd a b l r =>
    intro t ls la ta l2 r2 h
    simp only [transformExpr] at h
    by_cases hg : logicalReplaceGuard a b l = true
    · rw [if_pos hg] at h; simp at h
    · rw [if_neg hg] at h
      injection h with h2
      injection h2 with ha hb hl hr
      subst ha; subst hb
      exact ⟨l, r, rfl, by simpa using hg, hl.symm, hr.symm⟩
  | exprContainer a b inner =>
    intro t ls la ta l2 r2 h
    simp only [transformExpr] at h
    split at h <;> simp at h
  | jsx tag a b c d sl sa children =>
    intro t ls la ta l2 r2 h
    simp only [transformExpr] at h
    split at h
    · simp at h
    · split at h <;> simp at h

/-- A container whose expression did not match the mode-flag clause at the
active tracker cannot match it under the empty tracker after transforming. -/
theorem isEmployeeAndLeft_nil_out (inner : Expr) (t : List String) (ls : List Nat)
    (i2 : Expr) (hc : isEmployeeAndLeft t inner = false)
    (h : (transformExpr t ls inner).2 = some i2) :
    isEmployeeAndLeft [] i2 = false := by
  by_contra hcon
  rw [Bool.not_eq_false] at hcon
  cases i2 <;> try simp [isEmployeeAndLeft] at hcon
  case logicalAnd la ta l2 r2 =>
    cases l2 <;> try simp [isEmployeeAndLeft] at hcon
    case ident nn =>
      have hnn : nn = "IS_EMPLOYEE_MODE" := by
        simpa [isEmployeeAndLeft] using hcon
      subst hnn
      obtain ⟨l, r, hinner, hg, hl2, hr2⟩ := transformExpr_some_and inner t ls la ta _ _ h
      have hsome : (transformExpr t ls l).2 = some (Expr.ident "IS_EMPLOYEE_MODE") := by
        cases hcl : (transformExpr t ls l).2 with
        | none => rw [hcl] at hl2; simp [orHole] at hl2
        | some l3 =>
          rw [hcl] at hl2
          simp only [orHole] at hl2
          rw [← hl2]
      obtain ⟨m, hlm, hrew⟩ := transformExpr_some_ident l t ls _ hsome
      subst hlm
      rw [hinner] at hc
      simp [isEmployeeAndLeft] at hc
      rw [identRewrite_eq_self hc.1] at hrew
      exact hc.2 hrew.symm

/-- A logical AND that escaped replacement cannot satisfy the replacement
guard under any tracker after its operands are transformed. -/
theorem guard_out_false (a b : List Comment) (l : Expr) (t : List String) (ls : List Nat)
    (hg : logicalReplaceGuard a b l = false) :
    logicalReplaceGuard a b (orHole (transformExpr t ls l).2) = false := by
  by_cases hm : hasEmployeeCodeComment (a ++ b) = true
  · have hflag : leftIsModeFlag l = false := by
      revert hg
      simp [logicalReplaceGuard, hm]
    by_contra hcon
    rw [Bool.not_eq_false] at hcon
    simp only [logicalReplaceGuard, Bool.and_eq_true] at hcon
    have hflag2 := hcon.2
    cases hcl : (transformExpr t ls l).2 with
    | none => rw [hcl] at hflag2; simp [orHole, leftIsModeFlag] at hflag2
    | some l3 =>
      rw [hcl] at hflag2
      simp only [orHole] at hflag2
      cases l3 <;> try simp [leftIsModeFlag] at hflag2
      rename_i nn
      have hnn : nn = "IS_EMPLOYEE_MODE" := by simpa [leftIsModeFlag] using hflag2
      subst hnn
      obtain ⟨m, hlm, hrew⟩ := transformExpr_some_ident l t ls _ hcl
      subst hlm
      have hmne : m ≠ "IS_EMPLOYEE_MODE" := by
        intro hh; subst hh
        simp [leftIsModeFlag] at hflag
      rcases identRewrite_cases t m with hcase | hcase <;> rw [hcase] at hrew
      · exact hmne hrew.symm
      · exact absurd hrew (by decide)
  · have hm2 : hasEmployeeCodeComment (a ++ b) = false := by simpa using hm
    simp [logicalReplaceGuard, hm2]

/-- Style properties surviving the main pass carry no marker. -/
theorem stylePropsOutUnmarked (ps : List StyleProp) :
    ∀ t, ∀ p ∈ (transformStyleProps t ps).2,
      (hasEmployeeCodeComment p.leading || hasEmployeeCodeComment p.trailing) = false := by
  induction ps with
  | nil => intro t p h; simp [transformStyleProps] at h
  | cons q rest ih =>
    intro t p h
    unfold transformStyleProps at h
    split at h
    · exact ih _ p h
    · rcases List.mem_cons.mp h with h1 | h1
      · subst h1
        simp only
        rename_i hq
        simpa using hq
      · exact ih _ p h1

mutual
theorem cleanTransformExpr (e : Expr) :
    ∀ t ls e2, (transformExpr t ls e).2 = some e2 → CleanExpr ls e2 := by
  cases e with
  | ident n => intro t ls e2 h; injection h with h2; subst h2; trivial
  | numLit n => intro t ls e2 h; injection h with h2; subst h2; trivial
  | boolLit b => intro t ls e2 h; injection h with h2; subst h2; trivial
  | nullLit => intro t ls e2 h; injection h with h2; subst h2; trivial
  | removedHole => intro t ls e2 h; injection h with h2; subst h2; trivial
  | member o p => intro t ls e2 h; injection h with h2; subst h2; trivial
  | logicalAnd a b l r =>
    intro t ls e2 h
    simp only [transformExpr] at h
    by_cases hg : logicalReplaceGuard a b l = true
    · rw [if_pos hg] at h
      injection h with h2; subst h2; trivial
    · rw [if_neg hg] at h
      injection h with h2
      subst h2
      refine ⟨guard_out_false a b l t ls (by simpa using hg), ?_, ?_⟩
      · cases hcl : (transformExpr t ls l).2 with
        | none => trivial
        | some l3 => exact cleanTransformExpr l t ls l3 hcl
      · cases hcr : (transformExpr (transformExpr t ls l).1 ls r).2 with
        | none => trivial
        | some r3 => exact cleanTransformExpr r _ ls r3 hcr
  | styleCreate props =>
    intro t ls e2 h
    simp only [transformExpr] at h
    injection h with h2
    subst h2
    intro p hp
    exact stylePropsOutUnmarked props t p hp
  | exprContainer a b inner =>
    intro t ls e2 h
    simp only [transformExpr] at h
    by_cases hsc : shouldRemoveContainer t a b inner = true
    · rw [if_pos hsc] at h; exact absurd h (by simp)
    · rw [if_neg hsc] at h
      injection h with h2
      subst h2
      have hparts : hasEmployeeCodeComment (a ++ b) = false ∧
          isEmployeeAndLeft t inner = false := by
        revert hsc
        simp [shouldRemoveContainer]
      refine ⟨hparts.1, ?_, ?_⟩
      · cases hci : (transformExpr t ls inner).2 with
        | none => simp [orHole, isEmployeeAndLeft]
        | some i2 =>
          simp only [orHole]
          exact isEmployeeAndLeft_nil_out inner t ls i2 hparts.2 hci
      · cases hci : (transformExpr t ls inner).2 with
        | none => trivial
        | some i2 => exact cleanTransformExpr inner t ls i2 hci
  | jsx tag a b c d sl sa children =>
    intro t ls e2 h
    simp only [transformExpr] at h
    by_cases hsr : shouldRemoveJSX t ls a b c d tag sl sa = true
    · rw [if_pos hsr] at h; exact absurd h (by simp)
    · rw [if_neg hsr] at h
      split at h
      · exact absurd h (by simp)
      · injection h with h2
        subst h2
        have hsr2 : shouldRemoveJSX t ls a b c d tag sl sa = false := by
          simpa using hsr
        simp only [shouldRemoveJSX, Bool.or_eq_false_iff] at hsr2
        exact ⟨hsr2.1.1.1.1.1, hsr2.1.1.1.1.2, hsr2.1.1.1.2, hsr2.1.2,
          cleanTransformExprList children t ls⟩

theorem cleanTransformExprList (es : ExprList) :
    ∀ t ls, CleanExprList ls (transformExprList t ls es).2 := by
  cases es with
  | nil => intro t ls; trivial
  | cons e rest =>
    intro t ls
    simp only [transformExprList]
    cases hce : (transformExpr t ls e).2 with
    | none => exact cleanTransformExprList rest _ ls
    | some e2 =>
      exact ⟨cleanTransformExpr e t ls e2 hce, cleanTransformExprList rest _ ls⟩
end

/-- Initializers surviving the main pass are clean. -/
theorem declsOutClean (ds : List Declarator) :
    ∀ t ls, ∀ d2 ∈ (transformDecls t ls ds).2, ∀ e, d2.init = some e →
      CleanExpr ls e := by
  induction ds with
  | nil => intro t ls d2 h; simp [transformDecls] at h
  | cons d rest ih =>
    intro t ls d2 h
    simp only [transformDecls] at h
    rcases List.mem_cons.mp h with h1 | h1
    · subst h1
      intro e he
      simp only at he
      revert he
      cases hinit : d.init with
      | none => simp
      | some e0 =>
        simp only
        intro he
        exact cleanTransformExpr e0 t ls e he
    · exact ih _ ls d2 h1

/-- The rewriter fixes critical names. -/
theorem identRewrite_critical {n : String} (t : List String)
    (h : n ∈ CRITICAL_IMPORTS) : identRewrite t n = n := by
  simp [identRewrite, h]

/-- A critical imported name survives specifier rewriting. -/
theorem critical_mem_importedNames_map (t : List String) (specs : List ImportSpec) :
    ∀ n, n ∈ importedNames specs → n ∈ CRITICAL_IMPORTS →
      n ∈ importedNames (specs.map (rewriteSpec t)) := by
  induction specs with
  | nil => intro n h; simp [importedNames] at h
  | cons s rest ih =>
    intro n hn hc
    simp only [importedNames, List.filterMap_cons] at hn ⊢
    rw [List.map_cons, List.filterMap_cons]
    have hspec : specName (rewriteSpec t s) = specName s ∨
        (specName s = some n → specName (rewriteSpec t s) = some n) := by
      right
      intro hsn
      obtain ⟨k, imp, loc⟩ := s
      cases k with
      | namedSpec => exact hsn
      | defaultSpec => exact hsn
      | namespaceSpec =>
        simp only [rewriteSpec]
        cases imp with
        | some i0 =>
          cases loc with
          | none => exact hsn
          | some l0 =>
            simp only [specName] at hsn ⊢
            injection hsn with hsn2
            subst hsn2
            simp [identRewrite_critical t hc]
        | none =>
          cases loc with
          | none => exact hsn
          | some l0 =>
            simp only [specName] at hsn ⊢
            injection hsn with hsn2
            subst hsn2
            simp [identRewrite_critical t hc]
    revert hn
    cases hsn : specName s with
    | none =>
      intro hn
      have : specName (rewriteSpec t s) = none := by
        obtain ⟨k, imp, loc⟩ := s
        cases k with
        | namedSpec => exact hsn
        | defaultSpec => exact hsn
        | namespaceSpec =>
          simp only [rewriteSpec]
          cases imp with
          | some i0 =>
            simp only [specName] at hsn ⊢
            cases loc with
            | none => exact hsn
            | some l0 => simp at hsn
          | none =>
            simp only [specName] at hsn ⊢
            cases loc with
            | none => rfl
            | some l0 => simp at hsn
      rw [this]
      show n ∈ List.filterMap specName (List.map (rewriteSpec t) rest)
      have hn2 : n ∈ List.filterMap specName rest := hn
      exact ih n hn2 hc
    | some m =>
      intro hn
      rcases List.mem_cons.mp hn with h1 | h1
      · subst h1
        rcases hspec with h2 | h2
        · rw [h2, hsn]; exact List.mem_cons_self _ _
        · rw [h2 hsn]; exact List.mem_cons_self _ _
      · cases hsn2 : specName (rewriteSpec t s) with
        | none => exact ih n h1 hc
        | some m2 => exact List.mem_cons_of_mem _ (ih n h1 hc)

/-- Criticality of an import is preserved by specifier rewriting. -/
theorem isCriticalImport_map (t : List String) (source : String)
    (specs : List ImportSpec)
    (h : isCriticalImport source (importedNames specs) = true) :
    isCriticalImport source (importedNames (specs.map (rewriteSpec t))) = true := by
  simp only [isCriticalImport, Bool.or_eq_true, Bool.and_eq_true,
    List.any_eq_true, decide_eq_true_eq] at h ⊢
  rcases h with (h | ⟨h1, n, hn, hc⟩) | ⟨n, hn, hc⟩
  · exact Or.inl (Or.inl h)
  · exact Or.inl (Or.inr ⟨h1, n, critical_mem_importedNames_map t specs n hn hc, hc⟩)
  · exact Or.inr ⟨n, critical_mem_importedNames_map t specs n hn hc, hc⟩

theorem cleanTransformStmt (s : Stmt) :
    ∀ t ls prev s2, (transformStmt t ls prev s).2 = some s2 →
      CleanStmt ls prev s2 := by
  cases s with
  | importDecl leading trailing source specs =>
    intro t ls prev s2 h
    simp only [transformStmt] at h
    by_cases hr : (source == "react/jsx-runtime" || source == "react/jsx-dev-runtime") = true
    · rw [if_pos hr] at h
      injection h with h2
      subst h2
      exact Or.inl hr
    · rw [if_neg hr] at h
      by_cases hcnd : ((hasEmployeeCodeComment leading || hasEmployeeCodeComment trailing) ||
          prevHasMarker prev) = true
      · rw [if_pos hcnd] at h
        by_cases hcrit : isCriticalImport source (importedNames specs) = true
        · rw [if_pos hcrit] at h
          injection h with h2
          subst h2
          exact Or.inr (Or.inr (isCriticalImport_map t source specs hcrit))
        · rw [if_neg hcrit] at h
          exact absurd h (by simp)
      · rw [if_neg hcnd] at h
        injection h with h2
        subst h2
        exact Or.inr (Or.inl (by simpa using hcnd))
  | varDecl leading trailing ds =>
    intro t ls prev s2 h
    simp only [transformStmt] at h
    by_cases hm : (hasEmployeeCodeComment leading || hasEmployeeCodeComment trailing) = true
    · rw [if_pos hm] at h; exact absurd h (by simp)
    · rw [if_neg hm] at h
      injection h with h2
      subst h2
      refine ⟨by simpa using hm, ?_⟩
      intro d2 hd2 e he
      exact declsOutClean ds t ls d2 hd2 e he
  | funcDecl leading trailing name =>
    intro t ls prev s2 h
    simp only [transformStmt] at h
    by_cases hm : (hasEmployeeCodeComment leading || hasEmployeeCodeComment trailing) = true
    · rw [if_pos hm] at h; exact absurd h (by simp)
    · rw [if_neg hm] at h
      injection h with h2
      subst h2
      simpa [CleanStmt] using hm
  | exprStmt leading trailing e =>
    intro t ls prev s2 h
    simp only [transformStmt] at h
    by_cases hm : (hasEmployeeCodeComment leading || hasEmployeeCodeComment trailing) = true
    · rw [if_pos hm] at h; exact absurd h (by simp)
    · rw [if_neg hm] at h
      cases hce : (transformExpr t ls e).2 with
      | none => rw [hce] at h; exact absurd h (by simp)
      | some e2 =>
        rw [hce] at h
        injection h with h2
        subst h2
        exact ⟨by simpa using hm, cleanTransformExpr e t ls e2 hce⟩

theorem cleanTransformStmts (ss : List Stmt) :
    ∀ t ls prev, CleanStmts ls prev (transformStmts t ls prev ss).2 := by
  induction ss with
  | nil => intro t ls prev; trivial
  | cons s rest ih =>
    intro t ls prev
    cases hcs : (transformStmt t ls prev s).2 with
    | none =>
      simp only [transformStmts, hcs]
      exact ih _ ls prev
    | some s0 =>
      simp only [transformStmts, hcs]
      exact ⟨cleanTransformStmt s t ls prev s0 hcs, ih _ ls (some s0)⟩

/-- A second plugin run is the identity on a file in survivor normal form. -/
theorem runPlugin_clean (q : Program)
    (h : CleanStmts (findEmployeeCodeCommentLines q.comments) none q.body) :
    runPlugin [] q = ([], q) := by
  have hseed := seedStmtsClean q.body _ none h []
  have hid := idTransformStmts q.body _ none h
  simp only [runPlugin, hseed, hid]

/-- C10: rerunning the full pruning pass on an already-pruned file removes
nothing further and rewrites nothing: the tree is returned unchanged and
the second removed-symbol report is empty. -/
theorem c10_idempotence (p : Program) :
    runPlugin [] (runPlugin [] p).2 = ([], (runPlugin [] p).2) := by
  apply runPlugin_clean
  exact cleanTransformStmts (seedStmts [] p.body).2 (seedStmts [] p.body).1
    (findEmployeeCodeCommentLines p.comments) none
